import Mathlib

/-!
Verification development for the raster-to-collision-geometry pipeline of the
CanvasAnimation repository (`src/js/setupObjects.js`, `src/js/boundingShape.js`
and the Node utility copy).  The JavaScript functions are shallowly embedded:
pixel alpha values are natural numbers, geometric coordinates are exact
rationals (the JS engine uses IEEE doubles; all counterexamples below involve
only small integers and dyadic rationals, where both arithmetics agree), and
the one JS `Number.MAX_VALUE` "not yet found" sentinel is modelled by an
`Option` distance.  Array mutation is replaced by explicit state passing.
-/

namespace CanvasAnim

/-- A 2-D point `{x, y}` with exact rational coordinates. -/
structure Point where
  x : ℚ
  y : ℚ
deriving DecidableEq, Repr, Inhabited

/-- An RGBA image buffer: `data` is the flat byte array, alpha of pixel
`(x, y)` lives at index `(y*width + x)*4 + 3`. -/
structure ImageData where
  width : ℕ
  height : ℕ
  data : List ℕ
deriving Repr

/-- `getAlpha` helper of `marchingSquares`: out-of-bounds reads give 0, and a
read past the end of `data` gives 0 (the JS `data[idx] || 0`). -/
def getAlpha (img : ImageData) (x y : ℤ) : ℕ :=
  if x < 0 ∨ (img.width : ℤ) ≤ x ∨ y < 0 ∨ (img.height : ℤ) ≤ y then 0
  else img.data.getD ((y * img.width + x) * 4 + 3).toNat 0

/-- `isSolid` helper of `marchingSquares`: alpha at least the threshold. -/
def isSolid (img : ImageData) (threshold : ℕ) (x y : ℤ) : Bool :=
  threshold ≤ getAlpha img x y

/-- The eight Moore directions, in the order of the `directions` array. -/
def directions : List (ℤ × ℤ) :=
  [(1, 0), (1, 1), (0, 1), (-1, 1), (-1, 0), (-1, -1), (0, -1), (1, -1)]

/-- Row-major scan for the first solid pixel (the start of the trace). -/
def findStart (img : ImageData) (threshold : ℕ) : Option (ℤ × ℤ) :=
  ((List.range img.height).flatMap fun y =>
    (List.range img.width).map fun x => ((x : ℤ), (y : ℤ))).find?
    fun c => isSolid img threshold c.1 c.2

/-- One scan of the eight neighbours, starting at `direction`: the position of
the first solid neighbour together with the next search direction
`(checkDir + 6) % 8`, or `none` when no neighbour is solid. -/
def msStep (img : ImageData) (threshold : ℕ) (cur : ℤ × ℤ) (direction : ℕ) :
    Option ((ℤ × ℤ) × ℕ) :=
  ((List.range 8).map fun i => (direction + i) % 8).findSome? fun checkDir =>
    let d := directions.getD checkDir (0, 0)
    let n := (cur.1 + d.1, cur.2 + d.2)
    if isSolid img threshold n.1 n.2 then some (n, (checkDir + 6) % 8) else none

/-- The `do … while` trace loop.  `fuel` is the number of iterations still
allowed (`maxIterations - iterations`); the loop body pushes the current pixel,
steps, and repeats while the walk is not back at `start` and the iteration
count stays below the cap (`0 < fuel - 1`, i.e. `fuel = f + 1` with `0 < f`). -/
def msLoop (img : ImageData) (threshold : ℕ) (start : ℤ × ℤ) :
    ℕ → (ℤ × ℤ) → ℕ → List (ℤ × ℤ) → List (ℤ × ℤ)
  | fuel, cur, direction, acc =>
    let acc' := acc ++ [cur]
    match msStep img threshold cur direction with
    | none => acc'
    | some (next, dir') =>
      match fuel with
      | 0 => acc'
      | f + 1 =>
        if next ≠ start ∧ 0 < f then
          msLoop img threshold start f next dir' acc'
        else acc'

/-- Moore-neighbour contour trace (`marchingSquares`), at the integer-pixel
level.  Iteration cap `width*height*4`, initial direction 7. -/
def marchingSquaresZ (img : ImageData) (threshold : ℕ) : List (ℤ × ℤ) :=
  match findStart img threshold with
  | none => []
  | some start => msLoop img threshold start (img.width * img.height * 4) start 7 []

/-- `marchingSquares`: the traced contour as rational points. -/
def marchingSquares (img : ImageData) (threshold : ℕ) : List Point :=
  (marchingSquaresZ img threshold).map fun c => ⟨(c.1 : ℚ), (c.2 : ℚ)⟩

/-- `getSqDist` helper of `douglasPeucker` (defined in the source, unused by
the simplification step itself). -/
def getSqDist (p1 p2 : Point) : ℚ :=
  (p1.x - p2.x) * (p1.x - p2.x) + (p1.y - p2.y) * (p1.y - p2.y)

/-- `getSqSegDist`: squared distance from `p` to the segment `p1p2`, by the
projection-clamped-to-segment formula; a zero-length segment falls back to the
point-to-point distance. -/
def getSqSegDist (p p1 p2 : Point) : ℚ :=
  let x := p1.x
  let y := p1.y
  let dx := p2.x - x
  let dy := p2.y - y
  let q : Point :=
    if dx ≠ 0 ∨ dy ≠ 0 then
      let t := ((p.x - x) * dx + (p.y - y) * dy) / (dx * dx + dy * dy)
      if 1 < t then ⟨p2.x, p2.y⟩
      else if 0 < t then ⟨x + dx * t, y + dy * t⟩
      else ⟨x, y⟩
    else ⟨x, y⟩
  (p.x - q.x) * (p.x - q.x) + (p.y - q.y) * (p.y - q.y)

/-- The scan `for (i = first+1; i < last; i++)` of `simplifyDPStep`: running
maximum (seeded with `sqTolerance`) and the index of the last strict record.
`index = some i` holds exactly when the JS `maxSqDist > sqTolerance` test
succeeds, i.e. when JS `index` has been assigned. -/
def dpScan (points : List Point) (first last : ℕ) (sqTolerance : ℚ) :
    ℚ × Option ℕ :=
  (List.range' (first + 1) (last - (first + 1))).foldl
    (fun st i =>
      let sqDist := getSqSegDist (points.getD i default)
        (points.getD first default) (points.getD last default)
      if st.1 < sqDist then (sqDist, some i) else st)
    (sqTolerance, none)

/-- The recursive `simplifyDPStep`: the list of interior points pushed onto
`simplified` for the range `(first, last)`.  The recursion of the source
strictly shrinks `last - first`, so running it on the structural fuel
`last - first` (as `douglasPeucker` below does) reproduces it exactly: the
fuel-0 fallback is unreachable, because a split index exists only when
`first + 1 < last`, and each sub-range keeps `fuel ≥ last - first`
(`theorem simplifyDPStep_fuel` below). -/
def simplifyDPStep (points : List Point) :
    ℕ → ℕ → ℕ → ℚ → List Point
  | 0, _, _, _ => []
  | fuel + 1, first, last, sqTolerance =>
    match (dpScan points first last sqTolerance).2 with
    | none => []
    | some index =>
      (if 1 < index - first then
        simplifyDPStep points fuel first index sqTolerance
       else []) ++
      points.getD index default ::
      (if 1 < last - index then
        simplifyDPStep points fuel index last sqTolerance
       else [])

/-- `douglasPeucker`: lists of at most two points are returned unchanged;
otherwise the first point, the recursively kept interior points, and the last
point. -/
def douglasPeucker (points : List Point) (tolerance : ℚ) : List Point :=
  if points.length ≤ 2 then points
  else
    let sqTolerance := tolerance * tolerance
    let last := points.length - 1
    points.getD 0 default ::
      (simplifyDPStep points last 0 last sqTolerance ++
        [points.getD last default])

/-- The shared signed-area / cross-product primitive: `cross(o, a, b)` of
`isConvex` and `convexHull`, identical to `triangleArea(o, a, b)` of the
Bayazit helpers. -/
def cross (o a b : Point) : ℚ :=
  (a.x - o.x) * (b.y - o.y) - (a.y - o.y) * (b.x - o.x)

/-- One step of the sign-tracking loop of `isConvex`: `none` is the absorbing
"already returned false" state, `some sign` the current recorded sign. -/
def isConvexStep (polygon : List Point) (n : ℕ) (st : Option ℤ) (i : ℕ) :
    Option ℤ :=
  match st with
  | none => none
  | some sign =>
    let c := cross (polygon.getD i default)
      (polygon.getD ((i + 1) % n) default)
      (polygon.getD ((i + 2) % n) default)
    if c ≠ 0 then
      let s : ℤ := if 0 < c then 1 else -1
      if sign = 0 then some s
      else if s ≠ sign then none
      else some sign
    else some sign

/-- `isConvex`: fewer than 3 points are trivially convex; otherwise walk the
cyclic triples, record the sign of the first non-zero cross product and fail
on any later non-zero cross product of the opposite sign.  The early
`return false` is modelled by the absorbing `none` state of `isConvexStep`. -/
def isConvex (polygon : List Point) : Bool :=
  if polygon.length < 3 then true
  else
    ((List.range polygon.length).foldl
      (isConvexStep polygon polygon.length) (some 0)).isSome

/-- `triangleArea(a, b, c)`: the shared signed-area primitive of the Bayazit
helpers (same polynomial as `cross`). -/
def triangleArea (a b c : Point) : ℚ :=
  ((b.x - a.x) * (c.y - a.y)) - ((c.x - a.x) * (b.y - a.y))

/-- `isLeft`: `c` strictly left of the line `ab`. -/
def isLeft (a b c : Point) : Bool :=
  decide (0 < triangleArea a b c)

/-- `isLeftOn`: `c` left of or on the line `ab`. -/
def isLeftOn (a b c : Point) : Bool :=
  decide (0 ≤ triangleArea a b c)

/-- `isRight`: `c` strictly right of the line `ab`. -/
def isRight (a b c : Point) : Bool :=
  decide (triangleArea a b c < 0)

/-- `isRightOn`: `c` right of or on the line `ab`. -/
def isRightOn (a b c : Point) : Bool :=
  decide (triangleArea a b c ≤ 0)

/-- The JS `at(polygon, i)` wrap-around index (`at` is reserved in Lean).
JS `%` truncates towards zero, which is `Int.tmod`. -/
def atP (polygon : List Point) (i : ℤ) : Point :=
  let s : ℤ := polygon.length
  polygon.getD (if i < 0 then (Int.tmod i s + s).toNat else (Int.tmod i s).toNat)
    default

/-- `isReflex`: the vertex at (cyclic) index `i` turns right. -/
def isReflex (polygon : List Point) (i : ℤ) : Bool :=
  isRight (atP polygon (i - 1)) (atP polygon i) (atP polygon (i + 1))

/-- `sqdist`: squared distance between two points. -/
def sqdist (a b : Point) : ℚ :=
  (b.x - a.x) * (b.x - a.x) + (b.y - a.y) * (b.y - a.y)

/-- `segmentsIntersect`: parametric segment-segment intersection test, with
parallel segments reported as non-intersecting. -/
def segmentsIntersect (p1 p2 q1 q2 : Point) : Bool :=
  let dx := p2.x - p1.x
  let dy := p2.y - p1.y
  let da := q2.x - q1.x
  let db := q2.y - q1.y
  if da * dy - db * dx = 0 then false
  else
    let s := (dx * (q1.y - p1.y) + dy * (p1.x - q1.x)) / (da * dy - db * dx)
    let t := (da * (p1.y - q1.y) + db * (q1.x - p1.x)) / (db * dx - da * dy)
    decide (0 ≤ s ∧ s ≤ 1 ∧ 0 ≤ t ∧ t ≤ 1)

/-- `getIntersectionPoint` of the two (infinite) lines `p1p2` and `q1q2`;
near-singular systems (`|det| < 0.0001`) give `{x: 0, y: 0}`. -/
def getIntersectionPoint (p1 p2 q1 q2 : Point) : Point :=
  let a1 := p2.y - p1.y
  let b1 := p1.x - p2.x
  let c1 := a1 * p1.x + b1 * p1.y
  let a2 := q2.y - q1.y
  let b2 := q1.x - q2.x
  let c2 := a2 * q1.x + b2 * q1.y
  let det := a1 * b2 - a2 * b1
  if |det| < 1 / 10000 then ⟨0, 0⟩
  else ⟨(b2 * c1 - b1 * c2) / det, (a1 * c2 - a2 * c1) / det⟩

/-- `canSee(polygon, a, b)`: mutual visibility of vertices `a` and `b`. -/
def canSee (polygon : List Point) (a b : ℕ) : Bool :=
  if isLeftOn (atP polygon ((a : ℤ) + 1)) (atP polygon a) (atP polygon b) &&
      isLeftOn (atP polygon a) (atP polygon b) (atP polygon ((b : ℤ) - 1)) then
    false
  else
    (List.range polygon.length).all fun i =>
      if (i + 1) % polygon.length = a ∨ i = a then true
      else if (i + 1) % polygon.length = b ∨ i = b then true
      else !segmentsIntersect (atP polygon a) (atP polygon b)
        (atP polygon i) (atP polygon ((i : ℤ) + 1))

/-- `d < dist` where `dist` starts as the JS `Number.MAX_VALUE` sentinel,
modelled as `none`. -/
def ltOpt (d : ℚ) : Option ℚ → Bool
  | none => true
  | some m => decide (d < m)

/-- The per-reflex-vertex scan state of `bayazitDecomposition`: intersection
points, best (squared) distances and edge indices for the lower and upper cut
candidates.  All fields start as the JS locals do (`{x:0, y:0}`, MAX_VALUE
modelled as `none`, index 0). -/
structure BState where
  lowerInt : Point := ⟨0, 0⟩
  upperInt : Point := ⟨0, 0⟩
  lowerDist : Option ℚ := none
  upperDist : Option ℚ := none
  lowerIndex : ℕ := 0
  upperIndex : ℕ := 0

/-- The inner `for (j = 0; j < polygon.length; ++j)` scan of
`bayazitDecomposition` for the reflex vertex `i`. -/
def jScan (polygon : List Point) (i : ℕ) : BState :=
  (List.range polygon.length).foldl
    (fun st (j : ℕ) =>
      let st1 :=
        if isLeft (atP polygon ((i : ℤ) - 1)) (atP polygon i) (atP polygon j) &&
            isRightOn (atP polygon ((i : ℤ) - 1)) (atP polygon i)
              (atP polygon ((j : ℤ) - 1)) then
          let p := getIntersectionPoint (atP polygon ((i : ℤ) - 1))
            (atP polygon i) (atP polygon j) (atP polygon ((j : ℤ) - 1))
          if isRight (atP polygon ((i : ℤ) + 1)) (atP polygon i) p then
            let d := sqdist (polygon.getD i default) p
            if ltOpt d st.lowerDist then
              { st with lowerDist := some d, lowerInt := p, lowerIndex := j }
            else st
          else st
        else st
      if isLeft (atP polygon ((i : ℤ) + 1)) (atP polygon i)
          (atP polygon ((j : ℤ) + 1)) &&
          isRightOn (atP polygon ((i : ℤ) + 1)) (atP polygon i)
            (atP polygon j) then
        let p := getIntersectionPoint (atP polygon ((i : ℤ) + 1))
          (atP polygon i) (atP polygon j) (atP polygon ((j : ℤ) + 1))
        if isLeft (atP polygon ((i : ℤ) - 1)) (atP polygon i) p then
          let d := sqdist (polygon.getD i default) p
          if ltOpt d st1.upperDist then
            { st1 with upperDist := some d, upperInt := p, upperIndex := j }
          else st1
        else st1
      else st1)
    {}

/-- The JS loop `for (k = a; k <= b; k++) out.push(polygon[k])`. -/
def slice (polygon : List Point) (a b : ℕ) : List Point :=
  (polygon.drop a).take (b + 1 - a)

/-- The split of `polygon` at the reflex vertex `i` into the
`(lowerPoly, upperPoly)` pair, covering both the Steiner-point case (cut
candidates on cyclically adjacent edges) and the closest-visible-vertex
case.  The visibility scan's `closestIndex` accumulator keeps its initial
value 0 when no visible vertex is found, exactly as in the source. -/
def bayazitFindSplit (polygon : List Point) (i : ℕ) :
    List Point × List Point :=
  let n := polygon.length
  let st := jScan polygon i
  if st.lowerIndex = (st.upperIndex + 1) % n then
    let p : Point := ⟨(st.lowerInt.x + st.upperInt.x) / 2,
                      (st.lowerInt.y + st.upperInt.y) / 2⟩
    if i < st.upperIndex then
      (slice polygon i st.upperIndex ++ [p],
       p :: ((if st.lowerIndex ≠ 0 then polygon.drop st.lowerIndex else []) ++
         slice polygon 0 i))
    else
      ((if i ≠ 0 then polygon.drop i else []) ++
         slice polygon 0 st.upperIndex ++ [p],
       p :: slice polygon st.lowerIndex i)
  else
    let upperIndex := if st.upperIndex < st.lowerIndex then st.upperIndex + n
      else st.upperIndex
    let cs := (List.range' st.lowerIndex (upperIndex + 1 - st.lowerIndex)).foldl
      (fun (acc : Option ℚ × ℕ) j =>
        if canSee polygon i (j % n) then
          let d := sqdist (atP polygon i) (atP polygon j)
          if ltOpt d acc.1 then (some d, j % n) else acc
        else acc)
      (none, 0)
    let closestIndex := cs.2
    if i < closestIndex then
      (slice polygon i closestIndex,
       polygon.drop closestIndex ++ slice polygon 0 i)
    else
      (polygon.drop i ++ slice polygon 0 closestIndex,
       slice polygon closestIndex i)

/-- The recursion of `bayazitDecomposition`, structurally on the number
`fuel = maxlevel + 1 - level` of levels still below the cap: `fuel = 0` is
exactly the JS guard `level > maxlevel` (emit the polygon as-is), and each
recursive call at `level + 1` has one unit less fuel. -/
def bayazitAux (polygon : List Point) : ℕ → List (List Point)
  | 0 => if polygon.length < 3 then [] else [polygon]
  | fuel + 1 =>
    if polygon.length < 3 then []
    else if isConvex polygon then [polygon]
    else
      match (List.range polygon.length).find?
          (fun (i : ℕ) => isReflex polygon (i : ℤ)) with
      | none => [polygon]
      | some i =>
        let s := bayazitFindSplit polygon i
        bayazitAux s.1 fuel ++ bayazitAux s.2 fuel

/-- `bayazitDecomposition`: recursive Bayazit/FACD decomposition.  The
`result` output array becomes the returned list (`lowerPoly` results before
`upperPoly` results); recursion past the level cap emits the polygon as-is. -/
def bayazitDecomposition (polygon : List Point) (maxlevel level : ℕ) :
    List (List Point) :=
  bayazitAux polygon (maxlevel + 1 - level)

/-- Number of invocations of `bayazitDecomposition` (the call itself plus all
recursive calls), mirroring the recursion structure of `bayazitAux`. -/
def bayazitCallsAux (polygon : List Point) : ℕ → ℕ
  | 0 => 1
  | fuel + 1 =>
    if polygon.length < 3 then 1
    else if isConvex polygon then 1
    else
      match (List.range polygon.length).find?
          (fun (i : ℕ) => isReflex polygon (i : ℤ)) with
      | none => 1
      | some i =>
        let s := bayazitFindSplit polygon i
        1 + bayazitCallsAux s.1 fuel + bayazitCallsAux s.2 fuel

/-- Total number of `bayazitDecomposition` invocations starting from
`(maxlevel, level)`. -/
def bayazitCalls (polygon : List Point) (maxlevel level : ℕ) : ℕ :=
  bayazitCallsAux polygon (maxlevel + 1 - level)

/-- Whether some call in the recursion tree of `bayazitDecomposition` exits
through the `level > maxlevel` branch (and hence emits a possibly non-convex
polygon as-is). -/
def bayazitCapHitAux (polygon : List Point) : ℕ → Bool
  | 0 => decide (3 ≤ polygon.length)
  | fuel + 1 =>
    if polygon.length < 3 then false
    else if isConvex polygon then false
    else
      match (List.range polygon.length).find?
          (fun (i : ℕ) => isReflex polygon (i : ℤ)) with
      | none => false
      | some i =>
        let s := bayazitFindSplit polygon i
        bayazitCapHitAux s.1 fuel || bayazitCapHitAux s.2 fuel

/-- Whether the decomposition starting from `(maxlevel, level)` emits some
polygon through the level cap. -/
def bayazitCapHit (polygon : List Point) (maxlevel level : ℕ) : Bool :=
  bayazitCapHitAux polygon (maxlevel + 1 - level)

/-- `decomposeIntoConvexPolygons`: degenerate inputs give `[]`, convex inputs
are returned as a single polygon, otherwise Bayazit with `maxlevel = 100`
starting at level 0 (falling back to `[polygon]` on an empty result). -/
def decomposeIntoConvexPolygons (polygon : List Point) : List (List Point) :=
  if polygon.length < 3 then []
  else if isConvex polygon then [polygon]
  else
    let result := bayazitDecomposition polygon 100 0
    if 0 < result.length then result else [polygon]

/-- Phase 1: trace the contour and simplify it with Douglas-Peucker. -/
def phase1_marchingSquares (img : ImageData) (threshold : ℕ) (tolerance : ℚ) :
    List Point :=
  let contour := marchingSquares img threshold
  if contour.length = 0 then [] else douglasPeucker contour tolerance

/-- Phase 2: wrapper around `decomposeIntoConvexPolygons`. -/
def phase2_decomposeIntoConvexPolygons (polygon : List Point) :
    List (List Point) :=
  decomposeIntoConvexPolygons polygon

/-- Whether the phase-2 decomposition of this mask hits the Bayazit level cap
(shared by both pipeline variants, which differ only in phase 3). -/
def computeDecompositionCapHit (img : ImageData) (threshold : ℕ)
    (tolerance : ℚ) : Bool :=
  let contour := phase1_marchingSquares img threshold tolerance
  if contour.length < 3 then false
  else if isConvex contour then false
  else bayazitCapHit contour 100 0

namespace SO

/-- Phase 3 as in `src/js/setupObjects.js`: polygons with at most 3 vertices
pass through; otherwise re-simplify at the same tolerance and keep the
simplification only if still convex.  No length filter. -/
def phase3_optimizeConvexPolygons (convexPolygons : List (List Point))
    (tolerance : ℚ) : List (List Point) :=
  convexPolygons.map fun polygon =>
    if polygon.length ≤ 3 then polygon
    else
      let simplified := douglasPeucker polygon tolerance
      if isConvex simplified then simplified else polygon

/-- The three-phase pipeline of `src/js/setupObjects.js`, starting from the
extracted `ImageData` (image extraction itself is the excluded collaborator). -/
def computeOptimizedConvexDecomposition (img : ImageData) (threshold : ℕ)
    (tolerance : ℚ) : List (List Point) :=
  let contour := phase1_marchingSquares img threshold tolerance
  if contour.length = 0 then []
  else
    phase3_optimizeConvexPolygons (phase2_decomposeIntoConvexPolygons contour)
      tolerance

end SO

namespace BS

/-- Phase 3 as in the Node utility copy: re-simplify each polygon at the
reduced tolerance `max(tolerance * 0.3, 0.5)`, keep the simplification only
if still convex, then filter out polygons with fewer than 3 points. -/
def phase3_optimizeConvexPolygons (polygons : List (List Point))
    (tolerance : ℚ) : List (List Point) :=
  let reducedTolerance := max (tolerance * (3 / 10)) (1 / 2)
  (polygons.map fun polygon =>
    let simplified := douglasPeucker polygon reducedTolerance
    if isConvex simplified then simplified else polygon).filter
    fun polygon => decide (3 ≤ polygon.length)

/-- The three-phase pipeline of the Node utility copy, starting from the
extracted `ImageData`. -/
def computeOptimizedConvexDecomposition (img : ImageData) (threshold : ℕ)
    (tolerance : ℚ) : List (List Point) :=
  let contour := phase1_marchingSquares img threshold tolerance
  if contour.length = 0 then []
  else
    phase3_optimizeConvexPolygons (phase2_decomposeIntoConvexPolygons contour)
      tolerance

end BS

/-- The sort order of `convexHull`: ascending by `y`, ties broken by `x`
(the JS comparator `a.y - b.y` / `a.x - b.x`). -/
def lexLe (a b : Point) : Prop :=
  a.y < b.y ∨ (a.y = b.y ∧ a.x ≤ b.x)

instance lexLe.instDecidableRel : DecidableRel lexLe := fun a b => by
  unfold lexLe
  exact inferInstance

instance lexLe.instIsTotal : IsTotal Point lexLe :=
  ⟨fun a b => by
    rcases lt_trichotomy a.y b.y with h | h | h
    · exact Or.inl (Or.inl h)
    · rcases le_total a.x b.x with hx | hx
      · exact Or.inl (Or.inr ⟨h, hx⟩)
      · exact Or.inr (Or.inr ⟨h.symm, hx⟩)
    · exact Or.inr (Or.inl h)⟩

instance lexLe.instIsTrans : IsTrans Point lexLe :=
  ⟨fun a b c h1 h2 => by
    rcases h1 with h1 | ⟨h1, h1x⟩ <;> rcases h2 with h2 | ⟨h2, h2x⟩
    · exact Or.inl (h1.trans h2)
    · exact Or.inl (lt_of_lt_of_eq h1 h2)
    · exact Or.inl (lt_of_eq_of_lt h1 h2)
    · exact Or.inr ⟨h1.trans h2, h1x.trans h2x⟩⟩

/-- One candidate point pushed onto a hull chain.  The chain is kept
top-first (head = most recently pushed); the `while` loop pops the top while
the cross product of the last two retained points and the candidate is ≤ 0. -/
def chainPush : List Point → Point → List Point
  | b :: a :: rest, p =>
    if cross a b p ≤ 0 then chainPush (a :: rest) p else p :: b :: a :: rest
  | chain, p => p :: chain

/-- A hull chain built over a point list (result top-first). -/
def buildChain (points : List Point) : List Point :=
  points.foldl chainPush []

/-- `convexHull` (monotone chain): fewer than 3 points are returned
unchanged; otherwise sort ascending by `(y, x)` (the JS comparator sort —
equal keys are equal points, so the sorted list is unique and insertion sort
reproduces it), build the lower chain over the sorted list and the upper
chain over its reverse, drop the duplicated endpoint of each and
concatenate.  Chains are reversed back to bottom-first order, matching the
JS arrays. -/
def convexHull (points : List Point) : List Point :=
  if points.length < 3 then points
  else
    let sorted := List.insertionSort lexLe points
    let lower := (buildChain sorted).reverse
    let upper := (buildChain sorted.reverse).reverse
    lower.dropLast ++ upper.dropLast

/-- All cyclic consecutive vertex triples of `H` have non-negative cross
product: `H` is convex and positively (counter-clockwise, in the repository's
own sign convention) oriented. -/
def CCWOriented (H : List Point) : Prop :=
  ∀ i < H.length, 0 ≤ cross (H.getD i default)
    (H.getD ((i + 1) % H.length) default)
    (H.getD ((i + 2) % H.length) default)

/-- Point negation.  Conjugating by `negP` reverses the lexicographic order
and preserves every cross product, which turns the descending upper-chain
pass of `convexHull` into an ascending pass. -/
def negP (p : Point) : Point :=
  ⟨-p.x, -p.y⟩

/-- A top-first chain makes a strict left turn at every interior vertex. -/
def LeftTurns : List Point → Prop
  | a :: b :: c :: rest => 0 < cross c b a ∧ LeftTurns (b :: c :: rest)
  | _ => True

/-- `q` is on or to the left of every (bottom-to-top directed) edge of a
top-first chain. -/
def EdgesOK (q : Point) : List Point → Prop
  | b :: a :: rest => 0 ≤ cross a b q ∧ EdgesOK q (a :: rest)
  | _ => True

/-- Every three consecutive points of a (bottom-first) list have a
non-negative cross product. -/
def Cross3Nonneg : List Point → Prop
  | a :: b :: c :: rest => 0 ≤ cross a b c ∧ Cross3Nonneg (b :: c :: rest)
  | _ => True

/-- Every (bottom-to-top directed) consecutive edge of a bottom-first list
has `q` on or to its left. -/
def Edges2Nonneg (q : Point) : List Point → Prop
  | a :: b :: rest => 0 ≤ cross a b q ∧ Edges2Nonneg q (b :: rest)
  | _ => True

/-- Invariant of a hull chain `c` (kept top-first) over the processed points
`P` (in processing order): the chain is non-empty, drawn from `P`, anchored
at the first processed point, strictly left-turning, lexicographically
non-decreasing bottom-up, every processed point lies on or left of every
chain edge, and a duplicated top pair forces all processed points equal. -/
structure ChainCore (P c : List Point) : Prop where
  ne : c ≠ []
  sub : ∀ x ∈ c, x ∈ P
  bot : c.getLast? = P.head?
  turns : LeftTurns c
  mono : List.Chain' (fun x y => lexLe y x) c
  edges : ∀ q ∈ P, EdgesOK q c
  dup : ∀ x y rest, c = x :: y :: rest → x = y → ∀ q ∈ P, q = x

/-- What is known about the top of the chain while `chainPush` is popping:
either no pop has happened yet (the head is a lexicographic upper bound of
`P`), or the vertex `v` just popped came with its pop condition, its old
edge invariant, its order relation to the new head, the pre-pop turn above
the new top pair, and the degenerate-duplicate implication. -/
def TopFact (P : List Point) (z : Point) (c : List Point) : Prop :=
  (∀ q ∈ P, lexLe q (c.headD default)) ∨
  (∃ v, v ∈ P ∧ cross (c.headD default) v z ≤ 0 ∧
    (∀ q ∈ P, 0 ≤ cross (c.headD default) v q) ∧
    lexLe (c.headD default) v ∧
    (∀ x y rest, c = x :: y :: rest → 0 < cross y x v) ∧
    (∀ x, c = [x] → x = v → ∀ q ∈ P, q = x))

/-- Whether `decomposeIntoConvexPolygons` would return its
`result.length > 0 ? result : [polygon]` fallback (an empty Bayazit result on
a non-convex input) for this mask. -/
def computeDecompositionFallback (img : ImageData) (threshold : ℕ)
    (tolerance : ℚ) : Bool :=
  let contour := phase1_marchingSquares img threshold tolerance
  if contour.length < 3 then false
  else if isConvex contour then false
  else decide (bayazitDecomposition contour 100 0 = [])

/-- A `w × h` RGBA buffer whose solid pixels (alpha 255) are exactly those
listed; all other bytes are 0. -/
def mkImg (w h : ℕ) (solid : List (ℕ × ℕ)) : ImageData :=
  { width := w, height := h,
    data := (List.range (w * h * 4)).map fun i =>
      if i % 4 = 3 ∧ ((i / 4) % w, (i / 4) / w) ∈ solid then 255 else 0 }

/-- A 4×4 alpha mask (11 solid pixels) whose traced contour doubles back on
itself; at tolerance 2 the simplified contour is the non-convex quadrilateral
`[(0,0), (3,0), (3,3), (1,0)]`, on which the Bayazit recursion reaches its
level cap and emits the quadrilateral unchanged. -/
def maskC1 : ImageData :=
  mkImg 4 4 [(0, 0), (0, 2), (1, 0), (1, 3), (2, 0), (2, 1), (2, 2), (2, 3),
    (3, 0), (3, 2), (3, 3)]

/-- A 2×2 fully transparent mask. -/
def maskEmpty : ImageData :=
  mkImg 2 2 []

/-- A 1×1 fully transparent mask (a single pixel of alpha 0). -/
def maskZero : ImageData :=
  { width := 1, height := 1, data := [0, 0, 0, 0] }

/-- A 1×1 fully opaque mask. -/
def maskOne : ImageData :=
  { width := 1, height := 1, data := [0, 0, 0, 255] }

/-- A fully opaque 3×3 mask; its simplified contour is a triangle, so the
pipeline is exercised without reaching the Bayazit level cap. -/
def maskSq : ImageData :=
  mkImg 3 3 [(0, 0), (1, 0), (2, 0), (0, 1), (1, 1), (2, 1), (0, 2), (1, 2),
    (2, 2)]

theorem dpScan_bounds (points : List Point) (first last : ℕ) (sqTolerance : ℚ)
    {i : ℕ} (h : (dpScan points first last sqTolerance).2 = some i) :
    first < i ∧ i < last := by
  unfold dpScan at h
  have key : ∀ (l : List ℕ) (st : ℚ × Option ℕ),
      (∀ j, st.2 = some j → first < j ∧ j < last) →
      (∀ j ∈ l, first < j ∧ j < last) →
      ∀ j, (l.foldl (fun st i =>
        let sqDist := getSqSegDist (points.getD i default)
          (points.getD first default) (points.getD last default)
        if st.1 < sqDist then (sqDist, some i) else st) st).2 = some j →
        first < j ∧ j < last := by
    intro l
    induction l with
    | nil => intro st hst _ j hj; exact hst j hj
    | cons a l ih =>
      intro st hst hmem j hj
      simp only [List.foldl_cons] at hj
      refine ih _ ?_ (fun j hj => hmem j (List.mem_cons_of_mem _ hj)) j hj
      intro j hj'
      by_cases hc : st.1 < getSqSegDist (points.getD a default)
          (points.getD first default) (points.getD last default)
      · simp only [hc, if_pos] at hj'
        cases hj'
        exact hmem a (List.mem_cons_self _ _)
      · simp only [hc, if_neg, not_false_iff] at hj'
        exact hst j hj'
  refine key _ _ (by simp) ?_ i h
  intro j hj
  have := List.mem_range'_1.mp hj
  omega

theorem simplifyDPStep_fuel (points : List Point) :
    ∀ f1 f2 first last sqTolerance, last - first ≤ f1 → last - first ≤ f2 →
      simplifyDPStep points f1 first last sqTolerance =
        simplifyDPStep points f2 first last sqTolerance := by
  intro f1
  induction f1 using Nat.strong_induction_on with
  | _ f1 ih =>
    intro f2 first last sqTolerance h1 h2
    match f1, f2 with
    | 0, 0 => rfl
    | 0, g + 1 =>
      simp only [simplifyDPStep]
      cases hscan : (dpScan points first last sqTolerance).2 with
      | none => rfl
      | some index =>
        have := dpScan_bounds points first last sqTolerance hscan
        omega
    | g + 1, 0 =>
      simp only [simplifyDPStep]
      cases hscan : (dpScan points first last sqTolerance).2 with
      | none => rfl
      | some index =>
        have := dpScan_bounds points first last sqTolerance hscan
        omega
    | g1 + 1, g2 + 1 =>
      simp only [simplifyDPStep]
      cases hscan : (dpScan points first last sqTolerance).2 with
      | none => rfl
      | some index =>
        have hb := dpScan_bounds points first last sqTolerance hscan
        have e1 : simplifyDPStep points g1 first index sqTolerance =
            simplifyDPStep points g2 first index sqTolerance :=
          ih g1 (by omega) g2 first index sqTolerance (by omega) (by omega)
        have e2 : simplifyDPStep points g1 index last sqTolerance =
            simplifyDPStep points g2 index last sqTolerance :=
          ih g1 (by omega) g2 index last sqTolerance (by omega) (by omega)
        simp only [e1, e2]

theorem triangleArea_eq_cross (a b c : Point) :
    triangleArea a b c = cross a b c := by
  unfold triangleArea cross
  ring

theorem isConvexStep_preserve (polygon : List Point) (n : ℕ) {st : Option ℤ}
    (i : ℕ) (hst : st = some 0 ∨ st = some 1)
    (hc : 0 ≤ cross (polygon.getD i default)
      (polygon.getD ((i + 1) % n) default)
      (polygon.getD ((i + 2) % n) default)) :
    isConvexStep polygon n st i = some 0 ∨
      isConvexStep polygon n st i = some 1 := by
  have hcase : cross (polygon.getD i default)
      (polygon.getD ((i + 1) % n) default)
      (polygon.getD ((i + 2) % n) default) = 0 ∨
      0 < cross (polygon.getD i default)
      (polygon.getD ((i + 1) % n) default)
      (polygon.getD ((i + 2) % n) default) := by
    rcases lt_or_eq_of_le hc with h | h
    · exact Or.inr h
    · exact Or.inl h.symm
  rcases hst with h | h <;> subst h <;> simp only [isConvexStep] <;>
    rcases hcase with hz | hp <;>
    split_ifs <;>
    simp_all <;>
    linarith

theorem isConvex_of_cross_nonneg (polygon : List Point)
    (h : ∀ i < polygon.length, 0 ≤ cross (polygon.getD i default)
      (polygon.getD ((i + 1) % polygon.length) default)
      (polygon.getD ((i + 2) % polygon.length) default)) :
    isConvex polygon = true := by
  unfold isConvex
  by_cases hlen : polygon.length < 3
  · rw [if_pos hlen]
  · rw [if_neg hlen]
    have key : ∀ (l : List ℕ), (∀ i ∈ l, i < polygon.length) →
        ∀ st : Option ℤ, st = some 0 ∨ st = some 1 →
        (l.foldl (isConvexStep polygon polygon.length) st) = some 0 ∨
          (l.foldl (isConvexStep polygon polygon.length) st) = some 1 := by
      intro l
      induction l with
      | nil => intro _ st hst; simpa using hst
      | cons a l ih =>
        intro hmem st hst
        simp only [List.foldl_cons]
        exact ih (fun i hi => hmem i (List.mem_cons_of_mem _ hi)) _
          (isConvexStep_preserve polygon polygon.length a hst
            (h a (hmem a (List.mem_cons_self _ _))))
    rcases key (List.range polygon.length)
        (fun i hi => List.mem_range.mp hi) (some 0) (Or.inl rfl) with h' | h' <;>
      rw [h'] <;> rfl

theorem atP_natCast (polygon : List Point) (k : ℕ)
    (hn : polygon.length ≠ 0) :
    atP polygon (k : ℤ) = polygon.getD (k % polygon.length) default := by
  simp only [atP]
  rw [if_neg (by omega)]
  have ht : Int.tmod (k : ℤ) (polygon.length : ℤ) =
      ((k % polygon.length : ℕ) : ℤ) := (Int.ofNat_tmod k polygon.length).symm
  rw [ht, Int.toNat_ofNat]

theorem atP_neg_one (polygon : List Point) (h2 : 2 ≤ polygon.length) :
    atP polygon (-1) = polygon.getD (polygon.length - 1) default := by
  simp only [atP]
  rw [if_pos (by norm_num)]
  congr 1
  obtain ⟨m, hm⟩ : ∃ m, polygon.length = m + 2 := ⟨polygon.length - 2, by omega⟩
  rw [hm]
  have h1 : Int.tmod (-1) ((m + 2 : ℕ) : ℤ) = -((1 : ℤ) % ((m + 2 : ℕ) : ℤ)) := by
    show Int.tmod (Int.negSucc 0) (Int.ofNat (m + 2)) = _
    simp only [Int.tmod]
    norm_num
    exact (Int.emod_eq_of_lt (by norm_num) (by omega)).symm
  rw [h1]
  have h2' : ((1 : ℤ)) % ((m + 2 : ℕ) : ℤ) = 1 :=
    Int.emod_eq_of_lt (by norm_num) (by push_cast; omega)
  rw [h2']
  omega

theorem isConvex_of_no_reflex (polygon : List Point)
    (h3 : 3 ≤ polygon.length)
    (h : ∀ i < polygon.length, isReflex polygon (i : ℤ) = false) :
    isConvex polygon = true := by
  apply isConvex_of_cross_nonneg
  intro i hi
  have hn0 : polygon.length ≠ 0 := by omega
  rcases Nat.lt_or_ge (i + 1) polygon.length with hlt | hge
  · have hr := h (i + 1) hlt
    unfold isReflex at hr
    have e1 : ((i + 1 : ℕ) : ℤ) - 1 = (i : ℤ) := by push_cast; ring
    have e3 : ((i + 1 : ℕ) : ℤ) + 1 = ((i + 2 : ℕ) : ℤ) := by push_cast; ring
    rw [e1, e3, atP_natCast polygon i hn0, atP_natCast polygon (i + 1) hn0,
      atP_natCast polygon (i + 2) hn0, Nat.mod_eq_of_lt (by omega)] at hr
    unfold isRight at hr
    rw [decide_eq_false_iff_not, not_lt, triangleArea_eq_cross] at hr
    exact hr
  · have hin : i = polygon.length - 1 := by omega
    have hr := h 0 (by omega)
    unfold isReflex at hr
    have e1 : ((0 : ℕ) : ℤ) - 1 = (-1 : ℤ) := by norm_num
    have e3 : ((0 : ℕ) : ℤ) + 1 = ((1 : ℕ) : ℤ) := by norm_num
    rw [e1, e3, atP_neg_one polygon (by omega), atP_natCast polygon 0 hn0,
      atP_natCast polygon 1 hn0] at hr
    unfold isRight at hr
    rw [decide_eq_false_iff_not, not_lt, triangleArea_eq_cross] at hr
    have hplus : i + 1 = polygon.length := by omega
    have m0 : (0 : ℕ) % polygon.length = (i + 1) % polygon.length := by
      rw [hplus, Nat.mod_self, Nat.zero_mod]
    have m1 : (1 : ℕ) % polygon.length = (i + 2) % polygon.length := by
      rw [show i + 2 = polygon.length + 1 from by omega, Nat.add_mod_left]
    rw [m0, m1] at hr
    have mi : polygon.length - 1 = i := by omega
    rw [mi] at hr
    exact hr

/-- C3: a convex polygon with at least 3 points is returned by
`decomposeIntoConvexPolygons` as a single-element list containing exactly the
input polygon (so in particular one polygon, equal to the input up to — here,
the identity — rotation of point order). -/
theorem C3_decompose_convex_singleton (polygon : List Point)
    (h3 : 3 ≤ polygon.length) (hc : isConvex polygon = true) :
    decomposeIntoConvexPolygons polygon = [polygon] := by
  unfold decomposeIntoConvexPolygons
  rw [if_neg (by omega), if_pos hc]

theorem C3_witness :
    decomposeIntoConvexPolygons [(⟨0, 0⟩ : Point), ⟨1, 0⟩, ⟨0, 1⟩] =
      [[(⟨0, 0⟩ : Point), ⟨1, 0⟩, ⟨0, 1⟩]] :=
  C3_decompose_convex_singleton _ (by norm_num) (by with_unfolding_all rfl)

/-- C6: for every non-empty input, the Douglas-Peucker simplification keeps
both the first and the last input point. -/
theorem C6_endpoint_preservation (points : List Point) (tolerance : ℚ)
    (h : points ≠ []) :
    points.getD 0 default ∈ douglasPeucker points tolerance ∧
    points.getD (points.length - 1) default ∈
      douglasPeucker points tolerance := by
  have hlen : 0 < points.length := List.length_pos.mpr h
  unfold douglasPeucker
  by_cases h2 : points.length ≤ 2
  · rw [if_pos h2]
    constructor
    · rw [List.getD_eq_getElem _ _ (by omega)]
      exact List.getElem_mem _
    · rw [List.getD_eq_getElem _ _ (by omega)]
      exact List.getElem_mem _
  · rw [if_neg h2]
    refine ⟨List.mem_cons_self _ _, List.mem_cons_of_mem _ ?_⟩
    exact List.mem_append_right _ (List.mem_singleton_self _)

theorem C6_witness :
    [(⟨0, 0⟩ : Point), ⟨5, 5⟩].getD 0 default ∈
      douglasPeucker [(⟨0, 0⟩ : Point), ⟨5, 5⟩] 1 ∧
    [(⟨0, 0⟩ : Point), ⟨5, 5⟩].getD
        ([(⟨0, 0⟩ : Point), ⟨5, 5⟩].length - 1) default ∈
      douglasPeucker [(⟨0, 0⟩ : Point), ⟨5, 5⟩] 1 :=
  C6_endpoint_preservation _ 1 (List.cons_ne_nil _ _)

/-- C4: the Bayazit recursion is total and capped.  Once the current level
exceeds `maxlevel` the unresolved sub-polygon (if non-degenerate) is emitted
as-is instead of recursing, and the total number of recursive invocations
from `(maxlevel, level) = (100, 0)` is bounded by `2^102 - 1`. -/
theorem C4_termination_depth_cap :
    (∀ (polygon : List Point) (maxlevel level : ℕ), maxlevel < level →
      bayazitDecomposition polygon maxlevel level =
        if polygon.length < 3 then [] else [polygon]) ∧
    ∀ polygon : List Point, bayazitCalls polygon 100 0 ≤ 2 ^ 102 - 1 := by
  constructor
  · intro polygon maxlevel level hml
    unfold bayazitDecomposition
    rw [show maxlevel + 1 - level = 0 from by omega]
    rfl
  · intro polygon
    have key : ∀ (fuel : ℕ) (P : List Point),
        bayazitCallsAux P fuel ≤ 2 ^ (fuel + 1) - 1 := by
      intro fuel
      induction fuel with
      | zero => intro P; simp [bayazitCallsAux]
      | succ f ih =>
        intro P
        have hp : (2 : ℕ) ≤ 2 ^ (f + 1) := by
          calc (2 : ℕ) = 2 ^ 1 := by norm_num
            _ ≤ 2 ^ (f + 1) := Nat.pow_le_pow_right (by norm_num) (by omega)
        have hpow : 2 ^ (f + 1 + 1) = 2 ^ (f + 1) + 2 ^ (f + 1) := by ring
        show bayazitCallsAux P (f + 1) ≤ 2 ^ (f + 1 + 1) - 1
        simp only [bayazitCallsAux]
        split
        · omega
        · split
          · omega
          · split
            · omega
            · rename_i i heq
              have i1 := ih (bayazitFindSplit P i).1
              have i2 := ih (bayazitFindSplit P i).2
              omega
    calc bayazitCalls polygon 100 0 = bayazitCallsAux polygon 101 := rfl
      _ ≤ 2 ^ 102 - 1 := key 101 polygon

theorem C4_witness :
    bayazitDecomposition [(⟨0, 0⟩ : Point), ⟨3, 0⟩, ⟨3, 3⟩, ⟨1, 0⟩] 0 1 =
      [[(⟨0, 0⟩ : Point), ⟨3, 0⟩, ⟨3, 3⟩, ⟨1, 0⟩]] ∧
    bayazitCalls [(⟨0, 0⟩ : Point), ⟨3, 0⟩, ⟨3, 3⟩, ⟨1, 0⟩] 100 0 ≤
      2 ^ 102 - 1 := by
  constructor
  · have h := C4_termination_depth_cap.1
      [(⟨0, 0⟩ : Point), ⟨3, 0⟩, ⟨3, 3⟩, ⟨1, 0⟩] 0 1 (by norm_num)
    simpa using h
  · exact C4_termination_depth_cap.2 _

/-- C8: if no position meets the threshold, the trace returns the empty
contour and both pipeline variants return the empty polygon set; no error
value exists anywhere on this path. -/
theorem C8_empty_mask (img : ImageData) (threshold : ℕ) (tolerance : ℚ)
    (h : ∀ x y : ℤ, getAlpha img x y < threshold) :
    marchingSquares img threshold = [] ∧
    SO.computeOptimizedConvexDecomposition img threshold tolerance = [] ∧
    BS.computeOptimizedConvexDecomposition img threshold tolerance = [] := by
  have hz : marchingSquaresZ img threshold = [] := by
    unfold marchingSquaresZ
    have hf : findStart img threshold = none := by
      apply List.find?_eq_none.mpr
      intro c _
      unfold isSolid
      simp only [decide_eq_true_eq, not_le]
      exact h c.1 c.2
    rw [hf]
  have hm : marchingSquares img threshold = [] := by
    unfold marchingSquares
    rw [hz]
    rfl
  have hp : phase1_marchingSquares img threshold tolerance = [] := by
    unfold phase1_marchingSquares
    rw [hm]
    rfl
  refine ⟨hm, ?_, ?_⟩
  · unfold SO.computeOptimizedConvexDecomposition
    rw [hp]
    rfl
  · unfold BS.computeOptimizedConvexDecomposition
    rw [hp]
    rfl

theorem bayazitAux_none_eq (P : List Point) (f : ℕ)
    (h3 : ¬P.length < 3) (hcv : ¬isConvex P = true)
    (hfind : (List.range P.length).find?
      (fun (j : ℕ) => isReflex P (j : ℤ)) = none) :
    bayazitAux P (f + 1) = [P] := by
  simp only [bayazitAux]
  rw [if_neg h3, if_neg hcv, hfind]

theorem bayazitAux_split_eq (P : List Point) (f : ℕ) {i : ℕ}
    (h3 : ¬P.length < 3) (hcv : ¬isConvex P = true)
    (hfind : (List.range P.length).find?
      (fun (j : ℕ) => isReflex P (j : ℤ)) = some i) :
    bayazitAux P (f + 1) =
      bayazitAux (bayazitFindSplit P i).1 f ++
        bayazitAux (bayazitFindSplit P i).2 f := by
  simp only [bayazitAux]
  rw [if_neg h3, if_neg hcv, hfind]

theorem bayazitCapHitAux_split_eq (P : List Point) (f : ℕ) {i : ℕ}
    (h3 : ¬P.length < 3) (hcv : ¬isConvex P = true)
    (hfind : (List.range P.length).find?
      (fun (j : ℕ) => isReflex P (j : ℤ)) = some i) :
    bayazitCapHitAux P (f + 1) =
      (bayazitCapHitAux (bayazitFindSplit P i).1 f ||
        bayazitCapHitAux (bayazitFindSplit P i).2 f) := by
  simp only [bayazitCapHitAux]
  rw [if_neg h3, if_neg hcv, hfind]

theorem bayazitAux_mem_convex :
    ∀ (fuel : ℕ) (P : List Point), bayazitCapHitAux P fuel = false →
      ∀ q ∈ bayazitAux P fuel, isConvex q = true := by
  intro fuel
  induction fuel with
  | zero =>
    intro P hcap q hq
    simp only [bayazitCapHitAux, decide_eq_false_iff_not, not_le] at hcap
    simp only [bayazitAux, if_pos hcap] at hq
    cases hq
  | succ f ih =>
    intro P hcap q hq
    by_cases h3 : P.length < 3
    · simp only [bayazitAux, if_pos h3] at hq
      cases hq
    · by_cases hcv : isConvex P = true
      · simp only [bayazitAux, if_neg h3, if_pos hcv] at hq
        rw [List.mem_singleton.mp hq]
        exact hcv
      · cases hfind : (List.range P.length).find?
            (fun (j : ℕ) => isReflex P (j : ℤ)) with
        | none =>
          rw [bayazitAux_none_eq P f h3 hcv hfind] at hq
          rw [List.mem_singleton.mp hq]
          apply isConvex_of_no_reflex P (by omega)
          intro j hj
          have := List.find?_eq_none.mp hfind j (List.mem_range.mpr hj)
          simpa using this
        | some i =>
          rw [bayazitAux_split_eq P f h3 hcv hfind] at hq
          rw [bayazitCapHitAux_split_eq P f h3 hcv hfind] at hcap
          rw [Bool.or_eq_false_iff] at hcap
          rcases List.mem_append.mp hq with h | h
          · exact ih _ hcap.1 q h
          · exact ih _ hcap.2 q h

theorem phase2_mem_convex (contour : List Point)
    (hcap : (if contour.length < 3 then false
      else if isConvex contour then false
      else bayazitCapHit contour 100 0) = false)
    (hfb : (if contour.length < 3 then false
      else if isConvex contour then false
      else decide (bayazitDecomposition contour 100 0 = [])) = false) :
    ∀ p ∈ phase2_decomposeIntoConvexPolygons contour, isConvex p = true := by
  intro p hp
  unfold phase2_decomposeIntoConvexPolygons decomposeIntoConvexPolygons at hp
  by_cases h3 : contour.length < 3
  · rw [if_pos h3] at hp
    cases hp
  · rw [if_neg h3] at hp
    by_cases hcv : isConvex contour = true
    · rw [if_pos hcv] at hp
      rw [List.mem_singleton.mp hp]
      exact hcv
    · rw [if_neg hcv] at hp
      rw [if_neg h3, if_neg hcv] at hcap hfb
      have hne : bayazitDecomposition contour 100 0 ≠ [] := by
        intro he
        rw [he] at hfb
        simp at hfb
      have hlen : 0 < (bayazitDecomposition contour 100 0).length :=
        List.length_pos.mpr hne
      rw [if_pos hlen] at hp
      exact bayazitAux_mem_convex 101 contour hcap p hp

theorem phase3SO_preserves_convex (polys : List (List Point)) (tol : ℚ)
    (h : ∀ p ∈ polys, isConvex p = true) :
    ∀ p ∈ SO.phase3_optimizeConvexPolygons polys tol, isConvex p = true := by
  intro p hp
  unfold SO.phase3_optimizeConvexPolygons at hp
  obtain ⟨q, hq, hpe⟩ := List.mem_map.mp hp
  by_cases hl : q.length ≤ 3
  · rw [if_pos hl] at hpe
    rw [← hpe]
    exact h q hq
  · rw [if_neg hl] at hpe
    by_cases hs : isConvex (douglasPeucker q tol) = true
    · rw [if_pos hs] at hpe
      rw [← hpe]
      exact hs
    · rw [if_neg hs] at hpe
      rw [← hpe]
      exact h q hq

theorem phase3BS_preserves_convex (polys : List (List Point)) (tol : ℚ)
    (h : ∀ p ∈ polys, isConvex p = true) :
    ∀ p ∈ BS.phase3_optimizeConvexPolygons polys tol, isConvex p = true := by
  intro p hp
  unfold BS.phase3_optimizeConvexPolygons at hp
  obtain ⟨q, hq, hpe⟩ := List.mem_map.mp (List.mem_filter.mp hp).1
  by_cases hs : isConvex (douglasPeucker q
      (max (tol * (3 / 10)) (1 / 2))) = true
  · rw [if_pos hs] at hpe
    rw [← hpe]
    exact hs
  · rw [if_neg hs] at hpe
    rw [← hpe]
    exact h q hq

set_option maxHeartbeats 8000000 in
set_option maxRecDepth 100000 in
/-- C1 counterexample: on the 4×4 mask `maskC1` at threshold 128 and
tolerance 2, both pipeline variants return a set containing a polygon that
fails the convexity oracle (the Bayazit recursion reaches its level cap and
emits the unresolved non-convex quadrilateral as-is; phase 3 keeps it). -/
theorem C1_counterexample :
    ((SO.computeOptimizedConvexDecomposition maskC1 128 2).all isConvex)
      = false ∧
    ((BS.computeOptimizedConvexDecomposition maskC1 128 2).all isConvex)
      = false := by
  constructor
  · with_unfolding_all rfl
  · with_unfolding_all rfl

/-- C1 amended: whenever the Bayazit recursion neither reaches its level cap
nor produces an empty result (the two code paths that bypass the convexity
guarantee), every polygon returned by either pipeline variant satisfies the
convexity oracle. -/
theorem C1_amended (img : ImageData) (threshold : ℕ) (tolerance : ℚ)
    (hcap : computeDecompositionCapHit img threshold tolerance = false)
    (hfb : computeDecompositionFallback img threshold tolerance = false) :
    (∀ p ∈ SO.computeOptimizedConvexDecomposition img threshold tolerance,
      isConvex p = true) ∧
    (∀ p ∈ BS.computeOptimizedConvexDecomposition img threshold tolerance,
      isConvex p = true) := by
  unfold computeDecompositionCapHit at hcap
  unfold computeDecompositionFallback at hfb
  have key := phase2_mem_convex (phase1_marchingSquares img threshold tolerance)
    hcap hfb
  constructor
  · intro p hp
    unfold SO.computeOptimizedConvexDecomposition at hp
    by_cases h0 : (phase1_marchingSquares img threshold tolerance).length = 0
    · rw [if_pos h0] at hp
      cases hp
    · rw [if_neg h0] at hp
      exact phase3SO_preserves_convex _ _ key p hp
  · intro p hp
    unfold BS.computeOptimizedConvexDecomposition at hp
    by_cases h0 : (phase1_marchingSquares img threshold tolerance).length = 0
    · rw [if_pos h0] at hp
      cases hp
    · rw [if_neg h0] at hp
      exact phase3BS_preserves_convex _ _ key p hp

set_option maxHeartbeats 1000000 in
set_option maxRecDepth 100000 in
theorem C1_amended_witness :
    isConvex [(⟨0, 0⟩ : Point), ⟨2, 2⟩, ⟨0, 1⟩] = true :=
  (C1_amended maskSq 128 2 (by with_unfolding_all rfl)
    (by with_unfolding_all rfl)).1 [(⟨0, 0⟩ : Point), ⟨2, 2⟩, ⟨0, 1⟩] (by
    have he : SO.computeOptimizedConvexDecomposition maskSq 128 2 =
        [[(⟨0, 0⟩ : Point), ⟨2, 2⟩, ⟨0, 1⟩]] := by
      with_unfolding_all rfl
    rw [he]
    exact List.mem_singleton_self _)

theorem dpScan_mono (points : List Point) (first last : ℕ) {s1 s2 : ℚ}
    (h : s1 ≤ s2) {i : ℕ}
    (h2 : (dpScan points first last s2).2 = some i) :
    (dpScan points first last s1).2 = some i := by
  unfold dpScan at h2 ⊢
  set F := fun (st : ℚ × Option ℕ) (j : ℕ) =>
    let sqDist := getSqSegDist (points.getD j default)
      (points.getD first default) (points.getD last default)
    if st.1 < sqDist then (sqDist, some j) else st with hF
  have key : ∀ (l : List ℕ) (st1 st2 : ℚ × Option ℕ),
      ((st2.2 = none ∧ st2.1 = s2 ∧ st1.1 ≤ s2) ∨ st1 = st2) →
      ((l.foldl F st2).2 = none ∧ (l.foldl F st2).1 = s2 ∧
        (l.foldl F st1).1 ≤ s2) ∨ l.foldl F st1 = l.foldl F st2 := by
    intro l
    induction l with
    | nil => intro st1 st2 hrel; simpa using hrel
    | cons a l ih =>
      intro st1 st2 hrel
      simp only [List.foldl_cons]
      apply ih
      rcases hrel with ⟨hn, he, hle⟩ | he
      · by_cases hca : s2 < getSqSegDist (points.getD a default)
            (points.getD first default) (points.getD last default)
        · right
          show (if st1.1 < _ then _ else st1) = (if st2.1 < _ then _ else st2)
          rw [if_pos (lt_of_le_of_lt hle hca), if_pos (by rw [he]; exact hca)]
        · left
          constructor
          · show (if st2.1 < _ then _ else st2).2 = none
            rw [if_neg (by rw [he]; exact hca)]
            exact hn
          constructor
          · show (if st2.1 < _ then _ else st2).1 = s2
            rw [if_neg (by rw [he]; exact hca)]
            exact he
          · show (if st1.1 < _ then _ else st1).1 ≤ s2
            by_cases hd : st1.1 < getSqSegDist (points.getD a default)
                (points.getD first default) (points.getD last default)
            · rw [if_pos hd]
              exact le_of_not_lt hca
            · rw [if_neg hd]
              exact hle
      · right
        rw [he]
  rcases key (List.range' (first + 1) (last - (first + 1)))
      (s1, none) (s2, none) (Or.inl ⟨rfl, rfl, h⟩) with ⟨hn, _, _⟩ | he
  · rw [h2] at hn
    cases hn
  · rw [he]
    exact h2

theorem simplifyDPStep_length_mono (points : List Point) :
    ∀ (fuel first last : ℕ) (s1 s2 : ℚ), s1 ≤ s2 →
      (simplifyDPStep points fuel first last s2).length ≤
        (simplifyDPStep points fuel first last s1).length := by
  intro fuel
  induction fuel with
  | zero => intro first last s1 s2 h; simp [simplifyDPStep]
  | succ f ih =>
    intro first last s1 s2 h
    simp only [simplifyDPStep]
    cases hscan2 : (dpScan points first last s2).2 with
    | none => simp
    | some index =>
      have hscan1 := dpScan_mono points first last h hscan2
      rw [hscan1]
      show ((if 1 < index - first then
          simplifyDPStep points f first index s2 else []) ++
        points.getD index default ::
        (if 1 < last - index then
          simplifyDPStep points f index last s2 else [])).length ≤
        ((if 1 < index - first then
          simplifyDPStep points f first index s1 else []) ++
        points.getD index default ::
        (if 1 < last - index then
          simplifyDPStep points f index last s1 else [])).length
      have i1 := ih first index s1 s2 h
      have i2 := ih index last s1 s2 h
      simp only [List.length_append, List.length_cons]
      split_ifs <;> simp <;> omega

/-- C5: for tolerances `0 ≤ t1 < t2` (the spec's tolerance contract is
non-negative), the simplification at the smaller tolerance keeps at least as
many points as at the larger one. -/
theorem C5_simplification_monotonicity (P : List Point) (t1 t2 : ℚ)
    (h0 : 0 ≤ t1) (h12 : t1 < t2) :
    (douglasPeucker P t2).length ≤ (douglasPeucker P t1).length := by
  unfold douglasPeucker
  by_cases h2 : P.length ≤ 2
  · simp only [if_pos h2]
    exact le_refl _
  · simp only [if_neg h2]
    have hs : t1 * t1 ≤ t2 * t2 := by nlinarith
    have hm := simplifyDPStep_length_mono P (P.length - 1) 0 (P.length - 1)
      (t1 * t1) (t2 * t2) hs
    simp only [List.length_cons, List.length_append]
    omega

theorem C5_witness :
    (0 : ℚ) ≤ 1 ∧ (1 : ℚ) < 2 ∧
    (douglasPeucker [(⟨0, 0⟩ : Point), ⟨2, 2⟩, ⟨4, 0⟩] 2).length ≤
      (douglasPeucker [(⟨0, 0⟩ : Point), ⟨2, 2⟩, ⟨4, 0⟩] 1).length :=
  ⟨by norm_num, by norm_num,
    C5_simplification_monotonicity _ 1 2 (by norm_num) (by norm_num)⟩

/-- C2 counterexample: the `setupObjects.js` version of
`phase3_optimizeConvexPolygons` has no length filter.  The 4-point collinear
polygon is convex for the oracle, gets simplified to its 2 endpoints (also
trivially convex), and the 2-point polygon is surfaced to the caller. -/
theorem C2_counterexample :
    ([[(⟨0, 0⟩ : Point), ⟨1, 0⟩, ⟨2, 0⟩, ⟨3, 0⟩]].all isConvex) = true ∧
    ((SO.phase3_optimizeConvexPolygons
        [[(⟨0, 0⟩ : Point), ⟨1, 0⟩, ⟨2, 0⟩, ⟨3, 0⟩]] 1).all
      fun p => decide (3 ≤ p.length)) = false := by
  constructor
  · with_unfolding_all rfl
  · with_unfolding_all rfl

/-- C2 amended: the Node-utility version of `phase3_optimizeConvexPolygons`
(the one with the degenerate-polygon filter the spec describes) never
surfaces a polygon with fewer than 3 points; the `setupObjects.js` version
has no such filter and can (see the counterexample). -/
theorem C2_amended (polygons : List (List Point)) (tolerance : ℚ) :
    ∀ p ∈ BS.phase3_optimizeConvexPolygons polygons tolerance,
      3 ≤ p.length := by
  intro p hp
  unfold BS.phase3_optimizeConvexPolygons at hp
  have := (List.mem_filter.mp hp).2
  simpa using this

theorem C2_amended_witness :
    3 ≤ [(⟨0, 0⟩ : Point), ⟨4, 0⟩, ⟨0, 4⟩].length :=
  C2_amended [[(⟨0, 0⟩ : Point), ⟨4, 0⟩, ⟨0, 4⟩]] 1
    [(⟨0, 0⟩ : Point), ⟨4, 0⟩, ⟨0, 4⟩]
    (of_decide_eq_true (by with_unfolding_all rfl))

theorem msStep_solid (img : ImageData) (threshold : ℕ) (cur : ℤ × ℤ)
    (direction : ℕ) {next : ℤ × ℤ} {dir' : ℕ}
    (h : msStep img threshold cur direction = some (next, dir')) :
    isSolid img threshold next.1 next.2 = true := by
  unfold msStep at h
  obtain ⟨a, _, ha⟩ := List.exists_of_findSome?_eq_some h
  by_cases hs : isSolid img threshold
      (cur.1 + (directions.getD a (0, 0)).1)
      (cur.2 + (directions.getD a (0, 0)).2) = true
  · rw [if_pos hs] at ha
    cases ha
    exact hs
  · rw [if_neg hs] at ha
    cases ha

theorem msLoop_eq_of_none (img : ImageData) (threshold : ℕ)
    (start : ℤ × ℤ) (fuel : ℕ) (cur : ℤ × ℤ) (direction : ℕ)
    (acc : List (ℤ × ℤ))
    (h : msStep img threshold cur direction = none) :
    msLoop img threshold start fuel cur direction acc = acc ++ [cur] := by
  rw [msLoop, h]

theorem msLoop_zero_eq (img : ImageData) (threshold : ℕ) (start : ℤ × ℤ)
    (cur : ℤ × ℤ) (direction : ℕ) (acc : List (ℤ × ℤ)) {next : ℤ × ℤ}
    {dir' : ℕ} (h : msStep img threshold cur direction = some (next, dir')) :
    msLoop img threshold start 0 cur direction acc = acc ++ [cur] := by
  rw [msLoop, h]

theorem msLoop_succ_eq (img : ImageData) (threshold : ℕ) (start : ℤ × ℤ)
    (f : ℕ) (cur : ℤ × ℤ) (direction : ℕ) (acc : List (ℤ × ℤ))
    {next : ℤ × ℤ} {dir' : ℕ}
    (h : msStep img threshold cur direction = some (next, dir')) :
    msLoop img threshold start (f + 1) cur direction acc =
      if next ≠ start ∧ 0 < f then
        msLoop img threshold start f next dir' (acc ++ [cur])
      else acc ++ [cur] := by
  rw [msLoop, h]

theorem msLoop_solid (img : ImageData) (threshold : ℕ) (start : ℤ × ℤ) :
    ∀ (fuel : ℕ) (cur : ℤ × ℤ) (direction : ℕ) (acc : List (ℤ × ℤ)),
      isSolid img threshold cur.1 cur.2 = true →
      (∀ c ∈ acc, isSolid img threshold c.1 c.2 = true) →
      ∀ c ∈ msLoop img threshold start fuel cur direction acc,
        isSolid img threshold c.1 c.2 = true := by
  have htail : ∀ (cur : ℤ × ℤ) (acc : List (ℤ × ℤ)),
      isSolid img threshold cur.1 cur.2 = true →
      (∀ c ∈ acc, isSolid img threshold c.1 c.2 = true) →
      ∀ c ∈ acc ++ [cur], isSolid img threshold c.1 c.2 = true := by
    intro cur acc hcur hacc c hc
    rcases List.mem_append.mp hc with h | h
    · exact hacc c h
    · rw [List.mem_singleton.mp h]
      exact hcur
  intro fuel
  induction fuel with
  | zero =>
    intro cur direction acc hcur hacc c hc
    rcases hmt : msStep img threshold cur direction with _ | ⟨next, dir'⟩
    · rw [msLoop_eq_of_none img threshold start 0 cur direction acc hmt] at hc
      exact htail cur acc hcur hacc c hc
    · rw [msLoop_zero_eq img threshold start cur direction acc hmt] at hc
      exact htail cur acc hcur hacc c hc
  | succ f ih =>
    intro cur direction acc hcur hacc c hc
    rcases hmt : msStep img threshold cur direction with _ | ⟨next, dir'⟩
    · rw [msLoop_eq_of_none img threshold start (f + 1) cur direction acc
        hmt] at hc
      exact htail cur acc hcur hacc c hc
    · rw [msLoop_succ_eq img threshold start f cur direction acc hmt] at hc
      by_cases hcont : next ≠ start ∧ 0 < f
      · rw [if_pos hcont] at hc
        exact ih next dir' (acc ++ [cur])
          (msStep_solid img threshold cur direction hmt)
          (htail cur acc hcur hacc) c hc
      · rw [if_neg hcont] at hc
        exact htail cur acc hcur hacc c hc

theorem marchingSquaresZ_solid (img : ImageData) (threshold : ℕ) :
    ∀ c ∈ marchingSquaresZ img threshold,
      isSolid img threshold c.1 c.2 = true := by
  intro c hc
  unfold marchingSquaresZ at hc
  rcases hfs : findStart img threshold with _ | start <;> rw [hfs] at hc
  · cases hc
  · have hstart : isSolid img threshold start.1 start.2 = true := by
      unfold findStart at hfs
      exact List.find?_some (p := fun (c : ℤ × ℤ) => isSolid img threshold c.1 c.2) hfs
    exact msLoop_solid img threshold start _ start 7 [] hstart
      (by intro d hd; cases hd) c hc

/-- C10 counterexample: with threshold 0 every position (even outside the
mask bounds) counts as solid, so the trace of a fully transparent 1×1 mask
walks off the grid and the contour contains out-of-bounds points. -/
theorem C10_counterexample :
    marchingSquaresZ maskZero 0 = [(0, 0), (1, -1), (0, -2), (-1, -1)] ∧
    ((marchingSquaresZ maskZero 0).all fun c =>
      decide (0 ≤ c.1 ∧ c.1 < 1 ∧ 0 ≤ c.2 ∧ c.2 < 1)) = false := by
  constructor
  · with_unfolding_all rfl
  · with_unfolding_all rfl

/-- C10 amended: for every threshold of at least 1, every contour point
returned by `marchingSquares` is a solid in-bounds pixel: its coordinates lie
in the mask rectangle and its alpha value is at least the threshold. -/
theorem C10_amended (img : ImageData) (threshold : ℕ) (h1 : 1 ≤ threshold) :
    ∀ c ∈ marchingSquaresZ img threshold,
      0 ≤ c.1 ∧ c.1 < (img.width : ℤ) ∧ 0 ≤ c.2 ∧ c.2 < (img.height : ℤ) ∧
      threshold ≤ getAlpha img c.1 c.2 := by
  intro c hc
  have hs := marchingSquaresZ_solid img threshold c hc
  unfold isSolid at hs
  rw [decide_eq_true_eq] at hs
  by_cases hb : c.1 < 0 ∨ (img.width : ℤ) ≤ c.1 ∨ c.2 < 0 ∨
      (img.height : ℤ) ≤ c.2
  · exfalso
    unfold getAlpha at hs
    rw [if_pos hb] at hs
    omega
  · push_neg at hb
    exact ⟨by omega, by omega, by omega, by omega, hs⟩

theorem C10_witness :
    1 ≤ 128 ∧
    (0 ≤ (0 : ℤ) ∧ (0 : ℤ) < (maskOne.width : ℤ) ∧ 0 ≤ (0 : ℤ) ∧
      (0 : ℤ) < (maskOne.height : ℤ) ∧ 128 ≤ getAlpha maskOne 0 0) :=
  ⟨by norm_num,
    C10_amended maskOne 128 (by norm_num) (0, 0) (by
      have he : marchingSquaresZ maskOne 128 = [(0, 0)] := by
        with_unfolding_all rfl
      rw [he]
      exact List.mem_singleton_self _)⟩

theorem C8_witness :
    marchingSquares maskZero 128 = [] ∧
    SO.computeOptimizedConvexDecomposition maskZero 128 2 = [] ∧
    BS.computeOptimizedConvexDecomposition maskZero 128 2 = [] := by
  apply C8_empty_mask
  intro x y
  unfold getAlpha maskZero
  split
  · norm_num
  · have hd : ∀ n : ℕ, ([0, 0, 0, 0] : List ℕ).getD n 0 = 0 := by
      intro n
      match n with
      | 0 => rfl
      | 1 => rfl
      | 2 => rfl
      | 3 => rfl
      | m + 4 => rfl
    rw [hd]
    norm_num

theorem pointEq {a b : Point} (hx : a.x = b.x) (hy : a.y = b.y) : a = b := by
  cases a; cases b; simp_all

theorem lexLe_refl (a : Point) : lexLe a a := Or.inr ⟨rfl, le_refl _⟩

theorem lexLe_antisymm {a b : Point} (h1 : lexLe a b) (h2 : lexLe b a) :
    a = b := by
  apply pointEq <;> rcases h1 with h1 | ⟨h1, h1x⟩ <;>
    rcases h2 with h2 | ⟨h2, h2x⟩ <;> linarith

theorem cross_plucker (a b v z q : Point) :
    cross a b v * cross b z q =
      cross a b z * cross b v q - cross a b q * cross b v z := by
  unfold cross; ring

theorem cross_ycomp (a b z q : Point) :
    cross a b z * (q.y - b.y) =
      cross a b q * (z.y - b.y) - cross b z q * (b.y - a.y) := by
  unfold cross; ring

theorem cross_ycomp2 (u v z q : Point) :
    cross u v z * (q.y - u.y) =
      cross u v q * (z.y - u.y) - cross u z q * (v.y - u.y) := by
  unfold cross; ring

theorem cross_lemA {a b v z q : Point}
    (hturn : 0 < cross a b v) (hq1 : 0 ≤ cross a b q) (hq2 : 0 ≤ cross b v q)
    (hz1 : 0 < cross a b z) (hz2 : cross b v z ≤ 0) :
    0 ≤ cross b z q := by
  by_contra hcon
  push_neg at hcon
  have key := cross_plucker a b v z q
  have h1 : 0 ≤ cross a b z * cross b v q := mul_nonneg hz1.le hq2
  have h2 : cross a b q * cross b v z ≤ 0 :=
    mul_nonpos_iff.mpr (Or.inl ⟨hq1, hz2⟩)
  have h3 : cross a b v * cross b z q < 0 := mul_neg_of_pos_of_neg hturn hcon
  linarith

theorem cross_lemB {a b z q : Point}
    (hz1 : 0 < cross a b z) (hq1 : 0 ≤ cross a b q)
    (hab : lexLe a b) (hbz : lexLe b z) (hqb : lexLe q b) :
    0 ≤ cross b z q := by
  have key := cross_ycomp a b z q
  rcases hab with hab | ⟨hab, hax⟩
  · have hzy : b.y ≤ z.y := by rcases hbz with h | ⟨h, _⟩ <;> linarith
    have hqy : q.y ≤ b.y := by rcases hqb with h | ⟨h, _⟩ <;> linarith
    by_contra hcon
    push_neg at hcon
    nlinarith [mul_nonneg hq1 (by linarith : (0:ℚ) ≤ z.y - b.y),
      mul_nonneg hz1.le (by linarith : (0:ℚ) ≤ b.y - q.y),
      mul_neg_of_neg_of_pos hcon (by linarith : (0:ℚ) < b.y - a.y)]
  · have h1 : 0 ≤ b.x - a.x := by linarith
    have h2 : 0 ≤ z.y - b.y := by rcases hbz with h | ⟨h, _⟩ <;> linarith
    have hcz : cross a b z = (b.x - a.x) * (z.y - b.y) := by
      unfold cross; rw [hab]; ring
    have hbx : 0 < b.x - a.x := by nlinarith
    have hzy : 0 < z.y - b.y := by nlinarith
    have hcq : cross a b q = (b.x - a.x) * (q.y - b.y) := by
      unfold cross; rw [hab]; ring
    have hqy : b.y ≤ q.y := by nlinarith
    have hqy2 : q.y ≤ b.y := by rcases hqb with h | ⟨h, _⟩ <;> linarith
    have hqyy : q.y = b.y := le_antisymm hqy2 hqy
    have hqx : q.x ≤ b.x := by
      rcases hqb with h | ⟨h, hx⟩
      · linarith
      · exact hx
    have hg : cross b z q = -(z.y - b.y) * (q.x - b.x) := by
      unfold cross; rw [hqyy]; ring
    rw [hg]
    nlinarith

theorem cross_lemC {u v z q : Point}
    (h1v : lexLe u v) (hne : u ≠ v)
    (hq : 0 ≤ cross u v q) (hzp : cross u v z ≤ 0)
    (h1q : lexLe u q) (hvz : lexLe v z) :
    0 ≤ cross u z q := by
  have key := cross_ycomp2 u v z q
  rcases h1v with h1v | ⟨h1v, h1vx⟩
  · have hzy : u.y < z.y := by rcases hvz with h | ⟨h, _⟩ <;> linarith
    have hqy : u.y ≤ q.y := by rcases h1q with h | ⟨h, _⟩ <;> linarith
    by_contra hcon
    push_neg at hcon
    nlinarith [mul_nonneg hq (by linarith : (0:ℚ) ≤ z.y - u.y),
      mul_nonpos_iff.mpr (Or.inr ⟨hzp, (by linarith : (0:ℚ) ≤ q.y - u.y)⟩),
      mul_neg_of_neg_of_pos hcon (by linarith : (0:ℚ) < v.y - u.y)]
  · have hvx : u.x < v.x := by
      rcases lt_or_eq_of_le h1vx with h | h
      · exact h
      · exact absurd (pointEq h h1v) hne
    have hcz : cross u v z = (v.x - u.x) * (z.y - v.y) := by
      unfold cross; rw [h1v]; ring
    have hz2 : 0 ≤ z.y - v.y := by rcases hvz with h | ⟨h, _⟩ <;> linarith
    have hzy : z.y = v.y := by nlinarith
    have hzx : v.x ≤ z.x := by
      rcases hvz with h | ⟨h, hx⟩
      · linarith
      · exact hx
    have hcq : cross u v q = (v.x - u.x) * (q.y - v.y) := by
      unfold cross; rw [h1v]; ring
    have hqy : 0 ≤ q.y - v.y := by nlinarith
    have hzu : z.y = u.y := hzy.trans h1v.symm
    have hgoal : cross u z q = (z.x - u.x) * (q.y - u.y) := by
      unfold cross; rw [hzu]; ring
    rw [hgoal]
    exact mul_nonneg (by linarith) (by linarith)

theorem cross_lemD {a b c z : Point}
    (hturn : 0 < cross a b c) (hbz : 0 ≤ cross b c z)
    (hab : lexLe a b) (hbc : lexLe b c) (hcz : lexLe c z) :
    0 ≤ cross a b z := by
  have key := cross_ycomp a b c z
  rcases hbc with hbc | ⟨hbc, hbcx⟩
  · have hzy : c.y ≤ z.y := by rcases hcz with h | ⟨h, _⟩ <;> linarith
    have hay : a.y ≤ b.y := by rcases hab with h | ⟨h, _⟩ <;> linarith
    by_contra hcon
    push_neg at hcon
    nlinarith [mul_nonneg hturn.le (by linarith : (0:ℚ) ≤ z.y - b.y),
      mul_nonneg hbz (by linarith : (0:ℚ) ≤ b.y - a.y),
      mul_neg_of_neg_of_pos hcon (by linarith : (0:ℚ) < c.y - b.y)]
  · have hay : a.y ≤ b.y := by rcases hab with h | ⟨h, _⟩ <;> linarith
    have hc : cross a b c = (b.y - a.y) * (b.x - c.x) := by
      unfold cross; rw [hbc]; ring
    nlinarith [mul_nonpos_iff.mpr
      (Or.inl ⟨(by linarith : (0:ℚ) ≤ b.y - a.y),
        (by linarith : b.x - c.x ≤ (0:ℚ))⟩)]

theorem leftTurns_tail {x : Point} {l : List Point} (h : LeftTurns (x :: l)) :
    LeftTurns l := by
  cases l with
  | nil => trivial
  | cons b t =>
    cases t with
    | nil => trivial
    | cons c r => exact h.2

theorem edgesOK_tail {q x : Point} {l : List Point} (h : EdgesOK q (x :: l)) :
    EdgesOK q l := by
  cases l with
  | nil => trivial
  | cons a rest => exact h.2

theorem chainPush_head (z : Point) (c : List Point) :
    (chainPush c z).head? = some z := by
  induction c with
  | nil => rfl
  | cons b t ih =>
    cases t with
    | nil => rfl
    | cons a rest =>
      simp only [chainPush]
      split_ifs with h
      · exact ih
      · rfl

theorem two_le_chainPush_length (z : Point) (c : List Point) (h : c ≠ []) :
    2 ≤ (chainPush c z).length := by
  induction c with
  | nil => exact absurd rfl h
  | cons b t ih =>
    cases t with
    | nil => exact le_refl 2
    | cons a rest =>
      simp only [chainPush]
      split_ifs with hp
      · exact ih (List.cons_ne_nil a rest)
      · simp only [List.length_cons]
        omega

theorem edgesOK_top_descend (z : Point) (c : List Point)
    (ht : LeftTurns c) (hm : List.Chain' (fun x y => lexLe y x) c)
    (hx : ∀ x ∈ c, lexLe x z)
    (htop : ∀ b a rest, c = b :: a :: rest → 0 ≤ cross a b z) :
    EdgesOK z c := by
  induction c with
  | nil => trivial
  | cons b t ih =>
    cases t with
    | nil => trivial
    | cons a rest =>
      refine ⟨htop b a rest rfl, ?_⟩
      apply ih (leftTurns_tail ht) hm.tail
        (fun x hxm => hx x (List.mem_cons_of_mem b hxm))
      intro b' a' rest' heq
      cases rest with
      | nil => simp at heq
      | cons a2 rest2 =>
        injection heq with h1 h2
        injection h2 with h2a h2b
        rw [← h1, ← h2a]
        exact cross_lemD ht.1 (htop b a (a2 :: rest2) rfl)
          (List.chain'_cons.mp hm.tail).1 (List.chain'_cons.mp hm).1
          (hx b (List.mem_cons_self b _))

theorem cross_second_eq (o a : Point) : cross o a a = 0 := by unfold cross; ring

theorem cross_third_eq (o a : Point) : cross o a o = 0 := by unfold cross; ring

theorem cross_first_eq (o b : Point) : cross o o b = 0 := by unfold cross; ring

theorem chainStop (P : List Point) (z : Point) (hP : P ≠ [])
    (hz : ∀ q ∈ P, lexLe q z)
    (hmin : ∀ q ∈ P, ∀ b0, P.head? = some b0 → lexLe b0 q)
    (c : List Point) (inv : ChainCore P c) (tf : TopFact P z c)
    (hstop : ∀ b a rest, c = b :: a :: rest → 0 < cross a b z) :
    ChainCore (P ++ [z]) (z :: c) := by
  obtain ⟨ne, sub, bot, turns, mono, edges, dup⟩ := inv
  cases c with
  | nil => exact absurd rfl ne
  | cons c0 ct =>
  simp only [TopFact, List.headD_cons] at tf
  refine ⟨?_, ?_, ?_, ?_, ?_, ?_, ?_⟩
  · exact List.cons_ne_nil _ _
  · intro x hx
    rcases List.mem_cons.mp hx with h | h
    · exact List.mem_append.mpr (Or.inr (h ▸ List.mem_singleton_self z))
    · exact List.mem_append.mpr (Or.inl (sub x h))
  · cases P with
    | nil => exact absurd rfl hP
    | cons p0 pt =>
      rw [List.getLast?_cons_cons, bot]
      rfl
  · cases ct with
    | nil => trivial
    | cons c1 ct2 => exact ⟨hstop c0 c1 ct2 rfl, turns⟩
  · exact List.chain'_cons.mpr ⟨hz c0 (sub c0 (List.mem_cons_self c0 ct)), mono⟩
  · intro q hq
    rcases List.mem_append.mp hq with hqP | hqz
    · refine ⟨?_, edges q hqP⟩
      rcases tf with hub | ⟨v, hvP, hpop, hvedge, hlexv, hvturn, hvdup⟩
      · cases ct with
        | nil =>
          have hhead : P.head? = some c0 := bot.symm
          have hq0 : q = c0 :=
            lexLe_antisymm (hub q hqP) (hmin q hqP c0 hhead)
          rw [hq0]
          exact le_of_eq (cross_third_eq c0 z).symm
        | cons c1 ct2 =>
          exact cross_lemB (hstop c0 c1 ct2 rfl) (edges q hqP).1
            (List.chain'_cons.mp mono).1 (hz c0 (sub c0 (List.mem_cons_self c0 _)))
            (hub q hqP)
      · cases ct with
        | nil =>
          by_cases hc0v : c0 = v
          · have hq0 : q = c0 := hvdup c0 rfl hc0v q hqP
            rw [hq0]
            exact le_of_eq (cross_third_eq c0 z).symm
          · have hhead : P.head? = some c0 := bot.symm
            exact cross_lemC hlexv hc0v (hvedge q hqP) hpop
              (hmin q hqP c0 hhead) (hz v hvP)
        | cons c1 ct2 =>
          exact cross_lemA (hvturn c0 c1 ct2 rfl) (edges q hqP).1 (hvedge q hqP)
            (hstop c0 c1 ct2 rfl) hpop
    · rw [List.mem_singleton.mp hqz]
      refine ⟨le_of_eq (cross_second_eq c0 z).symm, ?_⟩
      exact edgesOK_top_descend z (c0 :: ct) turns mono
        (fun x hx => hz x (sub x hx))
        (fun b a rest heq => (hstop b a rest heq).le)
  · intro x y rest heq hxy q hq
    injection heq with h1 h2
    have hc0 : c0 = z := by
      cases h2
      exact (h1 ▸ hxy).symm
    cases ct with
    | nil =>
      have hxz : x = z := h1.symm
      rcases List.mem_append.mp hq with hqP | hqz
      · have hhead : P.head? = some c0 := bot.symm
        have h3 : lexLe q z := hz q hqP
        have h4 : lexLe c0 q := hmin q hqP c0 hhead
        rw [hxz, ← hc0]
        exact lexLe_antisymm (hc0 ▸ h3) h4
      · rw [List.mem_singleton.mp hqz, hxz]
    | cons c1 ct2 =>
      have h5 := hstop c0 c1 ct2 rfl
      rw [hc0, cross_second_eq] at h5
      exact absurd h5 (lt_irrefl 0)

theorem chainPush_main (P : List Point) (z : Point) (hP : P ≠ [])
    (hz : ∀ q ∈ P, lexLe q z)
    (hmin : ∀ q ∈ P, ∀ b0, P.head? = some b0 → lexLe b0 q) :
    ∀ c : List Point, ChainCore P c → TopFact P z c →
      ChainCore (P ++ [z]) (chainPush c z) := by
  intro c
  induction c with
  | nil => intro inv _; exact absurd rfl inv.ne
  | cons b t ih =>
    cases t with
    | nil =>
      intro inv tf
      exact chainStop P z hP hz hmin [b] inv tf
        (fun b' a' rest' heq => by simp at heq)
    | cons a rest =>
      intro inv tf
      obtain ⟨ne, sub, bot, turns, mono, edges, dup⟩ := inv
      by_cases hpop : cross a b z ≤ 0
      · have hrw : chainPush (b :: a :: rest) z = chainPush (a :: rest) z := by
          simp only [chainPush]
          rw [if_pos hpop]
        rw [hrw]
        apply ih
        · refine ⟨List.cons_ne_nil _ _, ?_, ?_, leftTurns_tail turns, mono.tail,
            ?_, ?_⟩
          · exact fun x hx => sub x (List.mem_cons_of_mem b hx)
          · rw [← bot, List.getLast?_cons_cons]
          · exact fun q hq => edgesOK_tail (edges q hq)
          · intro x y rest' heq hxy q hq
            cases rest with
            | nil => simp at heq
            | cons r1 rt =>
              injection heq with g1 g2
              injection g2 with g2a g2b
              have h6 := turns.1
              rw [g2a, ← hxy, ← g1, cross_first_eq] at h6
              exact absurd h6 (lt_irrefl 0)
        · refine Or.inr ⟨b, sub b (List.mem_cons_self b _), ?_, ?_, ?_, ?_, ?_⟩
          · exact hpop
          · exact fun q hq => (edges q hq).1
          · exact (List.chain'_cons.mp mono).1
          · intro x y rest' heq
            cases rest with
            | nil => simp at heq
            | cons r1 rt =>
              injection heq with g1 g2
              injection g2 with g2a g2b
              rw [← g1, ← g2a]
              exact turns.1
          · intro x heq hxb q hq
            injection heq with h1 h2
            have hba : b = a := by rw [h1, hxb]
            exact (dup b a rest rfl hba q hq).trans hxb.symm
      · have hrw : chainPush (b :: a :: rest) z = z :: b :: a :: rest := by
          simp only [chainPush]
          rw [if_neg hpop]
        rw [hrw]
        refine chainStop P z hP hz hmin (b :: a :: rest)
          ⟨ne, sub, bot, turns, mono, edges, dup⟩ tf ?_
        intro b' a' rest' heq
        injection heq with g1 g2
        injection g2 with g2a g2b
        rw [← g1, ← g2a]
        exact not_le.mp hpop

theorem headD_of_head? {L : List Point} {z : Point} (h : L.head? = some z) :
    L.headD default = z := by
  cases L with
  | nil => simp at h
  | cons a t =>
    simp only [List.head?_cons, Option.some.injEq] at h
    simp [List.headD_cons, h]

theorem chainCore_singleton (z : Point) : ChainCore [z] [z] := by
  refine ⟨List.cons_ne_nil _ _, fun x hx => hx, rfl, trivial,
    List.chain'_singleton z, fun q _ => trivial, ?_⟩
  intro x y rest heq
  simp at heq

theorem buildChain_core (l : List Point) (hs : List.Sorted lexLe l)
    (hne : l ≠ []) :
    ChainCore l (buildChain l) ∧
      ∀ q ∈ l, lexLe q ((buildChain l).headD default) := by
  induction l using List.reverseRecOn with
  | nil => exact absurd rfl hne
  | append_singleton l' z ih =>
    obtain ⟨hs', -, hcross⟩ := List.pairwise_append.mp hs
    have hz : ∀ q ∈ l', lexLe q z :=
      fun q hq => hcross q hq z (List.mem_singleton_self z)
    have hmin : ∀ q ∈ l', ∀ b0, l'.head? = some b0 → lexLe b0 q := by
      intro q hq b0 hb0
      cases l' with
      | nil => simp at hb0
      | cons p t =>
        simp only [List.head?_cons, Option.some.injEq] at hb0
        rcases List.mem_cons.mp hq with h | h
        · rw [← hb0, h]
          exact lexLe_refl p
        · exact hb0 ▸ List.rel_of_sorted_cons hs' q h
    have hbc : buildChain (l' ++ [z]) = chainPush (buildChain l') z := by
      unfold buildChain
      rw [List.foldl_append]
      rfl
    constructor
    · rw [hbc]
      cases l' with
      | nil => exact chainCore_singleton z
      | cons p t =>
        exact chainPush_main (p :: t) z (List.cons_ne_nil p t) hz hmin
          (buildChain (p :: t))
          (ih hs' (List.cons_ne_nil p t)).1
          (Or.inl (ih hs' (List.cons_ne_nil p t)).2)
    · intro q hq
      rw [hbc, headD_of_head? (chainPush_head z (buildChain l'))]
      rcases List.mem_append.mp hq with h | h
      · exact hz q h
      · rw [List.mem_singleton.mp h]
        exact lexLe_refl z

theorem negP_negP (p : Point) : negP (negP p) = p := by
  cases p
  simp [negP]

theorem negP_inj : Function.Injective negP := by
  intro a b h
  rw [← negP_negP a, h, negP_negP]

theorem cross_negP (o a b : Point) :
    cross (negP o) (negP a) (negP b) = cross o a b := by
  cases o; cases a; cases b
  simp only [cross, negP]
  ring

theorem lexLe_negP {a b : Point} : lexLe (negP a) (negP b) ↔ lexLe b a := by
  cases a; cases b
  simp only [lexLe, negP]
  constructor <;> rintro (h | ⟨h1, h2⟩)
  · exact Or.inl (by linarith)
  · exact Or.inr ⟨by linarith, by linarith⟩
  · exact Or.inl (by linarith)
  · exact Or.inr ⟨by linarith, by linarith⟩

theorem chainPush_negP (c : List Point) (z : Point) :
    chainPush (c.map negP) (negP z) = (chainPush c z).map negP := by
  induction c with
  | nil => rfl
  | cons b t ih =>
    cases t with
    | nil => rfl
    | cons a rest =>
      simp only [List.map_cons, chainPush, cross_negP]
      split_ifs with h
      · exact ih
      · rfl

theorem buildChain_negP (l : List Point) :
    buildChain (l.map negP) = (buildChain l).map negP := by
  suffices h : ∀ acc : List Point,
      List.foldl chainPush (acc.map negP) (l.map negP) =
        (List.foldl chainPush acc l).map negP from h []
  induction l with
  | nil => intro acc; rfl
  | cons p t ih =>
    intro acc
    simp only [List.map_cons, List.foldl_cons]
    rw [chainPush_negP]
    exact ih (chainPush acc p)

theorem leftTurns_map_negP (c : List Point) (h : LeftTurns c) :
    LeftTurns (c.map negP) := by
  induction c with
  | nil => trivial
  | cons a t ih =>
    cases t with
    | nil => trivial
    | cons b t2 =>
      cases t2 with
      | nil => trivial
      | cons d t3 =>
        exact ⟨by rw [cross_negP]; exact h.1, ih h.2⟩

theorem edgesOK_map_negP (q : Point) (c : List Point) (h : EdgesOK q c) :
    EdgesOK (negP q) (c.map negP) := by
  induction c with
  | nil => trivial
  | cons b t ih =>
    cases t with
    | nil => trivial
    | cons a rest =>
      exact ⟨by rw [cross_negP]; exact h.1, ih h.2⟩

theorem map_negP_negP (l : List Point) : (l.map negP).map negP = l := by
  rw [List.map_map]
  have hcomp : negP ∘ negP = id := funext negP_negP
  rw [hcomp, List.map_id]

theorem leftTurns_of_map_negP (c : List Point)
    (h : LeftTurns (c.map negP)) : LeftTurns c := by
  have h2 := leftTurns_map_negP (c.map negP) h
  rwa [map_negP_negP] at h2

theorem edgesOK_of_map_negP (q : Point) (c : List Point)
    (h : EdgesOK (negP q) (c.map negP)) : EdgesOK q c := by
  have h2 := edgesOK_map_negP (negP q) (c.map negP) h
  rwa [map_negP_negP, negP_negP] at h2

theorem buildChain_head_eq (l : List Point) (hne : l ≠ []) :
    (buildChain l).head? = l.getLast? := by
  induction l using List.reverseRecOn with
  | nil => exact absurd rfl hne
  | append_singleton l' z ih =>
    have hbc : buildChain (l' ++ [z]) = chainPush (buildChain l') z := by
      unfold buildChain
      rw [List.foldl_append]
      rfl
    rw [hbc, chainPush_head, List.getLast?_concat]

theorem buildChain_ne_nil (l : List Point) (hne : l ≠ []) :
    buildChain l ≠ [] := by
  intro h
  have h1 := buildChain_head_eq l hne
  rw [h] at h1
  have h2 := List.getLast?_isSome.mpr hne
  rw [← h1] at h2
  simp at h2

theorem two_le_buildChain_length (l : List Point) (h2 : 2 ≤ l.length) :
    2 ≤ (buildChain l).length := by
  induction l using List.reverseRecOn with
  | nil => simp at h2
  | append_singleton l' z ih =>
    have hbc : buildChain (l' ++ [z]) = chainPush (buildChain l') z := by
      unfold buildChain
      rw [List.foldl_append]
      rfl
    rw [hbc]
    apply two_le_chainPush_length
    apply buildChain_ne_nil
    intro h
    rw [h] at h2
    simp at h2

theorem cross3_tail {x : Point} {l : List Point} (h : Cross3Nonneg (x :: l)) :
    Cross3Nonneg l := by
  cases l with
  | nil => trivial
  | cons b t =>
    cases t with
    | nil => trivial
    | cons c r => exact h.2

theorem cross3_snoc (x : Point) (l : List Point) (h : Cross3Nonneg l)
    (hseam : ∀ a b rest, l = rest ++ [a, b] → 0 ≤ cross a b x) :
    Cross3Nonneg (l ++ [x]) := by
  induction l with
  | nil => trivial
  | cons p t ih =>
    cases t with
    | nil => trivial
    | cons p2 t2 =>
      cases t2 with
      | nil => exact ⟨hseam p p2 [] rfl, trivial⟩
      | cons p3 t3 =>
        refine ⟨h.1, ?_⟩
        exact ih h.2 (fun a b rest heq => hseam a b (p :: rest) (by rw [heq]; rfl))

theorem cross3_of_leftTurns (c : List Point) (h : LeftTurns c) :
    Cross3Nonneg c.reverse := by
  induction c with
  | nil => trivial
  | cons z c2 ih =>
    simp only [List.reverse_cons]
    apply cross3_snoc z c2.reverse (ih (leftTurns_tail h))
    intro a b rest heq
    have hc2 : c2 = b :: a :: rest.reverse := by
      rw [← List.reverse_reverse c2, heq]
      simp [List.reverse_append]
    rw [hc2] at h
    exact h.1.le

theorem edgesOK_last_edge {q : Point} {c : List Point} (h : EdgesOK q c)
    {a b : Point} {rest : List Point} (heq : c.reverse = rest ++ [a, b]) :
    0 ≤ cross a b q := by
  have hc : c = b :: a :: rest.reverse := by
    rw [← List.reverse_reverse c, heq]
    simp [List.reverse_append]
  rw [hc] at h
  exact h.1

theorem cross3_of_append_left (l1 l2 : List Point)
    (h : Cross3Nonneg (l1 ++ l2)) : Cross3Nonneg l1 := by
  induction l1 with
  | nil => trivial
  | cons a t ih =>
    cases t with
    | nil => trivial
    | cons b t2 =>
      cases t2 with
      | nil => trivial
      | cons c t3 => exact ⟨h.1, ih h.2⟩

theorem cross3_dropLast {l : List Point} (hne : l ≠ [])
    (h : Cross3Nonneg l) : Cross3Nonneg l.dropLast := by
  apply cross3_of_append_left l.dropLast [l.getLast hne]
  rwa [List.dropLast_append_getLast hne]

theorem cross3_of_decomp {l : List Point} (h : Cross3Nonneg l)
    {a b c : Point} {pre post : List Point}
    (heq : l = pre ++ a :: b :: c :: post) : 0 ≤ cross a b c := by
  induction pre generalizing l with
  | nil =>
    rw [heq] at h
    exact h.1
  | cons x t ih =>
    rw [heq] at h
    exact ih (cross3_tail h) rfl

theorem cross3_append (l1 l2 : List Point) (h1 : Cross3Nonneg l1)
    (h2 : Cross3Nonneg l2)
    (hseam2 : ∀ a rest b c r2, l1 = rest ++ [a] → l2 = b :: c :: r2 →
      0 ≤ cross a b c)
    (hseam1 : ∀ a b rest c r2, l1 = rest ++ [a, b] → l2 = c :: r2 →
      0 ≤ cross a b c) :
    Cross3Nonneg (l1 ++ l2) := by
  induction l1 with
  | nil => exact h2
  | cons p t ih =>
    cases t with
    | nil =>
      cases l2 with
      | nil => trivial
      | cons b t2 =>
        cases t2 with
        | nil => trivial
        | cons c r2 => exact ⟨hseam2 p [] b c r2 rfl rfl, h2⟩
    | cons p2 t2 =>
      cases t2 with
      | nil =>
        cases l2 with
        | nil => trivial
        | cons c r2 =>
          refine ⟨hseam1 p p2 [] c r2 rfl rfl, ?_⟩
          cases r2 with
          | nil => trivial
          | cons c2 r3 => exact ⟨hseam2 p2 [p] c c2 r3 rfl rfl, h2⟩
      | cons p3 t3 =>
        refine ⟨h1.1, ?_⟩
        exact ih h1.2
          (fun a rest b c r2 heq h2eq =>
            hseam2 a (p :: rest) b c r2 (by rw [heq]; rfl) h2eq)
          (fun a b rest c r2 heq h2eq =>
            hseam1 a b (p :: rest) c r2 (by rw [heq]; rfl) h2eq)

theorem cross3_getD {l : List Point} (h : Cross3Nonneg l) :
    ∀ j, j + 2 < l.length →
      0 ≤ cross (l.getD j default) (l.getD (j + 1) default)
        (l.getD (j + 2) default) := by
  induction l with
  | nil => intro j hj; simp at hj
  | cons a t ih =>
    intro j hj
    cases j with
    | zero =>
      cases t with
      | nil => simp at hj
      | cons b t2 =>
        cases t2 with
        | nil => simp at hj
        | cons c t3 =>
          simp only [List.getD_cons_zero, List.getD_cons_succ]
          exact h.1
    | succ j2 =>
      simp only [List.getD_cons_succ]
      apply ih (cross3_tail h) j2
      simp only [List.length_cons] at hj
      omega

theorem ccw_of_cross3_wrap (H : List Point) (hlen : 2 ≤ H.length)
    (h : Cross3Nonneg (H ++ [H.getD 0 default, H.getD 1 default])) :
    CCWOriented H := by
  intro i hi
  have hidx := cross3_getD h i (by
    simp only [List.length_append, List.length_cons, List.length_nil]
    omega)
  have e0 : (H ++ [H.getD 0 default, H.getD 1 default]).getD i default =
      H.getD i default :=
    List.getD_append H _ default i hi
  have e1 : (H ++ [H.getD 0 default, H.getD 1 default]).getD (i + 1) default =
      H.getD ((i + 1) % H.length) default := by
    rcases Nat.lt_or_ge (i + 1) H.length with hc | hc
    · rw [List.getD_append H _ default _ hc, Nat.mod_eq_of_lt hc]
    · have hc2 : i + 1 = H.length := by omega
      have h4 : i + 1 - H.length = 0 := by omega
      rw [List.getD_append_right H _ default _ hc, h4, hc2, Nat.mod_self]
      rfl
  have e2 : (H ++ [H.getD 0 default, H.getD 1 default]).getD (i + 2) default =
      H.getD ((i + 2) % H.length) default := by
    rcases Nat.lt_or_ge (i + 2) H.length with hc | hc
    · rw [List.getD_append H _ default _ hc, Nat.mod_eq_of_lt hc]
    · rcases Nat.eq_or_lt_of_le hc with hc2 | hc2
      · have h4 : i + 2 - H.length = 0 := by omega
        have h5 : (i + 2) % H.length = 0 := by rw [← hc2, Nat.mod_self]
        rw [List.getD_append_right H _ default _ hc, h4, h5]
        rfl
      · have hc3 : i + 2 = H.length + 1 := by omega
        have h4 : i + 2 - H.length = 1 := by omega
        have h5 : (i + 2) % H.length = 1 := by
          rw [hc3, Nat.add_mod_left, Nat.mod_eq_of_lt (by omega)]
        rw [List.getD_append_right H _ default _ hc, h4, h5]
        rfl
  rw [e0, e1, e2] at hidx
  exact hidx

theorem dropLast_append_of_getLast? {l : List Point} {a : Point}
    (h : l.getLast? = some a) : l.dropLast ++ [a] = l := by
  have hne : l ≠ [] := by intro hl; rw [hl] at h; simp at h
  have h2 := List.getLast?_eq_getLast l hne
  rw [h2] at h
  injection h with h3
  rw [← h3]
  exact List.dropLast_append_getLast hne

theorem mem_of_mem_dropLast {x : Point} {l : List Point}
    (h : x ∈ l.dropLast) : x ∈ l :=
  (List.dropLast_sublist l).subset h

theorem hull_assembly (pts sorted : List Point)
    (hperm : ∀ x, x ∈ sorted ↔ x ∈ pts)
    (hsort : List.Sorted lexLe sorted)
    (hlen3 : 3 ≤ sorted.length) :
    CCWOriented ((buildChain sorted).reverse.dropLast ++
        (buildChain sorted.reverse).reverse.dropLast) ∧
      ∀ p ∈ (buildChain sorted).reverse.dropLast ++
        (buildChain sorted.reverse).reverse.dropLast, p ∈ pts := by
  have hneS : sorted ≠ [] := by
    intro h
    rw [h] at hlen3
    simp at hlen3
  obtain ⟨coreL, ubL⟩ := buildChain_core sorted hsort hneS
  have hsortR : List.Sorted lexLe (sorted.reverse.map negP) :=
    List.pairwise_map.mpr
      (List.pairwise_reverse.mpr (hsort.imp fun h => lexLe_negP.mpr h))
  have hneR : sorted.reverse.map negP ≠ [] := by simpa using hneS
  obtain ⟨coreU, ubU⟩ := buildChain_core _ hsortR hneR
  have hbcU : buildChain (sorted.reverse.map negP) =
      (buildChain sorted.reverse).map negP := buildChain_negP sorted.reverse
  have turnsU : LeftTurns (buildChain sorted.reverse) := by
    apply leftTurns_of_map_negP
    rw [← hbcU]
    exact coreU.turns
  have edgesU : ∀ q ∈ sorted, EdgesOK q (buildChain sorted.reverse) := by
    intro q hq
    apply edgesOK_of_map_negP
    rw [← hbcU]
    exact coreU.edges (negP q) (List.mem_map_of_mem negP (List.mem_reverse.mpr hq))
  have subU : ∀ x ∈ buildChain sorted.reverse, x ∈ sorted := by
    intro x hx
    have h1 : negP x ∈ (buildChain sorted.reverse).map negP :=
      List.mem_map_of_mem negP hx
    rw [← hbcU] at h1
    obtain ⟨y, hy, hyx⟩ := List.mem_map.mp (coreU.sub (negP x) h1)
    rw [← negP_inj hyx]
    exact List.mem_reverse.mp hy
  set K := (buildChain sorted).reverse with hKdef
  set M := (buildChain sorted.reverse).reverse with hMdef
  have memK : ∀ x ∈ K, x ∈ sorted := by
    intro x hx
    rw [hKdef] at hx
    exact coreL.sub x (List.mem_reverse.mp hx)
  have memM : ∀ x ∈ M, x ∈ sorted := by
    intro x hx
    rw [hMdef] at hx
    exact subU x (List.mem_reverse.mp hx)
  have hK2 : 2 ≤ K.length := by
    rw [hKdef, List.length_reverse]
    exact two_le_buildChain_length sorted (by omega)
  have hM2 : 2 ≤ M.length := by
    rw [hMdef, List.length_reverse]
    apply two_le_buildChain_length
    rw [List.length_reverse]
    omega
  have hKne : K ≠ [] := by
    intro h
    rw [h] at hK2
    simp at hK2
  have hMne : M ≠ [] := by
    intro h
    rw [h] at hM2
    simp at hM2
  have headK : K.head? = sorted.head? := by
    rw [hKdef, List.head?_reverse]
    exact coreL.bot
  have lastK : K.getLast? = sorted.getLast? := by
    rw [hKdef, List.getLast?_reverse]
    exact buildChain_head_eq sorted hneS
  have headM : M.head? = sorted.getLast? := by
    rw [hMdef, List.head?_reverse]
    have h1 := coreU.bot
    rw [hbcU, List.getLast?_map, List.head?_map] at h1
    have h2 := Option.map_injective negP_inj h1
    rw [h2, List.head?_reverse]
  have lastM : M.getLast? = sorted.head? := by
    rw [hMdef, List.getLast?_reverse,
      buildChain_head_eq sorted.reverse (by simpa using hneS),
      List.getLast?_reverse]
  have hcross3K : Cross3Nonneg K := cross3_of_leftTurns _ coreL.turns
  have hcross3M : Cross3Nonneg M := cross3_of_leftTurns _ turnsU
  obtain ⟨kl, hkl⟩ := Option.isSome_iff_exists.mp (List.getLast?_isSome.mpr hKne)
  obtain ⟨ml, hml⟩ := Option.isSome_iff_exists.mp (List.getLast?_isSome.mpr hMne)
  have hKdec : K.dropLast ++ [kl] = K := dropLast_append_of_getLast? hkl
  have hMdec : M.dropLast ++ [ml] = M := dropLast_append_of_getLast? hml
  have hKd1 : 1 ≤ K.dropLast.length := by
    rw [List.length_dropLast]
    omega
  have hMd1 : 1 ≤ M.dropLast.length := by
    rw [List.length_dropLast]
    omega
  obtain ⟨kd0, kdt, hKd⟩ : ∃ a t, K.dropLast = a :: t := by
    cases hc : K.dropLast with
    | nil => rw [hc] at hKd1; simp at hKd1
    | cons a t => exact ⟨a, t, rfl⟩
  obtain ⟨md0, mdt, hMd⟩ : ∃ a t, M.dropLast = a :: t := by
    cases hc : M.dropLast with
    | nil => rw [hc] at hMd1; simp at hMd1
    | cons a t => exact ⟨a, t, rfl⟩
  -- identify junction points
  have hKcons : K = kd0 :: (kdt ++ [kl]) := by
    rw [← hKdec, hKd]
    rfl
  have hMcons : M = md0 :: (mdt ++ [ml]) := by
    rw [← hMdec, hMd]
    rfl
  have hmd0kl : md0 = kl := by
    have h1 : M.head? = some md0 := by rw [hMcons]; rfl
    have h2 : K.getLast? = M.head? := by rw [lastK, headM]
    rw [h1, hkl] at h2
    injection h2 with h3
    exact h3.symm
  have hmlkd0 : ml = kd0 := by
    have h1 : K.head? = some kd0 := by rw [hKcons]; rfl
    have h2 : M.getLast? = K.head? := by rw [lastM, headK]
    rw [h1, hml] at h2
    injection h2
  -- membership of the named points
  have hkd0mem : kd0 ∈ sorted := memK kd0 (by rw [hKcons]; exact List.mem_cons_self _ _)
  have hklmem : kl ∈ sorted := memK kl (by
    rw [← hKdec]
    exact List.mem_append.mpr (Or.inr (List.mem_singleton_self kl)))
  -- the hull H and its first two entries
  set H : List Point := K.dropLast ++ M.dropLast with hHdef
  have hh0 : H.getD 0 default = kd0 := by
    rw [hHdef, hKd]
    rfl
  have hh1mem : H.getD 1 default ∈ sorted := by
    rw [hHdef, hKd]
    cases kdt with
    | nil =>
      rw [hMd]
      simp only [List.cons_append, List.nil_append, List.getD_cons_succ,
        List.getD_cons_zero]
      exact memM md0 (mem_of_mem_dropLast (by rw [hMd]; exact List.mem_cons_self _ _))
    | cons kd1 kdt2 =>
      simp only [List.cons_append, List.getD_cons_succ, List.getD_cons_zero]
      exact memK kd1 (mem_of_mem_dropLast (by
        rw [hKd]
        exact List.mem_cons_of_mem _ (List.mem_cons_self _ _)))
  -- inner block : M.dropLast ++ [h0, h1]
  have hInner : Cross3Nonneg (M.dropLast ++
      [H.getD 0 default, H.getD 1 default]) := by
    refine cross3_append _ _ (cross3_dropLast hMne hcross3M) ?_ ?_ ?_
    · exact trivial
    · -- seam2 : one from M.dropLast, two from the wrap pair
      intro a rest b c r2 hdec hpair
      injection hpair with hb hrest1
      injection hrest1 with hc hr2
      have hMadec : M = rest ++ [a, ml] := by
        rw [← hMdec, hdec, List.append_assoc]
        rfl
      have hedge : 0 ≤ cross a ml (H.getD 1 default) :=
        edgesOK_last_edge (edgesU (H.getD 1 default) hh1mem) hMadec
      rw [← hb, ← hc, hh0, ← hmlkd0]
      exact hedge
    · -- seam1 : two from M.dropLast, one from the wrap pair
      intro a b rest c r2 hdec hpair
      injection hpair with hc hr2
      have hMadec : M = rest ++ a :: b :: ml :: [] := by
        rw [← hMdec, hdec, List.append_assoc]
        rfl
      have h1 := cross3_of_decomp hcross3M hMadec
      rw [← hc, hh0, ← hmlkd0]
      exact h1
  -- outer block : K.dropLast ++ (inner)
  have houter : Cross3Nonneg (K.dropLast ++ (M.dropLast ++
      [H.getD 0 default, H.getD 1 default])) := by
    refine cross3_append _ _ (cross3_dropLast hKne hcross3K) hInner ?_ ?_
    · -- seam2 : one from K.dropLast, two from the inner block
      intro a rest b c r2 hdec hpair
      have hKadec : K = rest ++ [a, kl] := by
        rw [← hKdec, hdec, List.append_assoc]
        rfl
      rw [hMd, List.cons_append] at hpair
      injection hpair with hb hrest1
      -- b = md0 = kl; c is head of mdt ++ [h0, h1]
      have hcmem : c ∈ sorted := by
        cases mdt with
        | nil =>
          rw [List.nil_append] at hrest1
          injection hrest1 with hc hr2
          rw [← hc, hh0]
          exact hkd0mem
        | cons mm mt =>
          rw [List.cons_append] at hrest1
          injection hrest1 with hc hr2
          rw [← hc]
          exact memM mm (mem_of_mem_dropLast (by
            rw [hMd]
            exact List.mem_cons_of_mem _ (List.mem_cons_self _ _)))
      have hedge : 0 ≤ cross a kl c :=
        edgesOK_last_edge (coreL.edges c hcmem) hKadec
      rw [← hb, hmd0kl]
      exact hedge
    · -- seam1 : two from K.dropLast, one from the inner block
      intro a b rest c r2 hdec hpair
      have hKadec : K = rest ++ a :: b :: kl :: [] := by
        rw [← hKdec, hdec, List.append_assoc]
        rfl
      have h1 := cross3_of_decomp hcross3K hKadec
      rw [hMd, List.cons_append] at hpair
      injection hpair with hc hrest1
      rw [← hc, hmd0kl]
      exact h1
  have hH2 : 2 ≤ H.length := by
    rw [hHdef, List.length_append]
    omega
  have hwrap : Cross3Nonneg (H ++ [H.getD 0 default, H.getD 1 default]) := by
    rw [hHdef, List.append_assoc]
    rw [hHdef] at houter
    exact houter
  constructor
  · exact ccw_of_cross3_wrap H hH2 hwrap
  · intro p hp
    rcases List.mem_append.mp hp with h | h
    · exact (hperm p).mp (memK p (mem_of_mem_dropLast h))
    · exact (hperm p).mp (memM p (mem_of_mem_dropLast h))

/-- C9: for every point set with at least 3 points, `convexHull` (monotone
chain sorted by `y` then `x`, popping on cross product ≤ 0) produces the hull
vertices in counter-clockwise order (every cyclic vertex triple has
non-negative cross product), the resulting polygon satisfies `isConvex`, and
every hull vertex is one of the input points; point sets with fewer than 3
points are returned unchanged. -/
theorem C9_convexHull_ccw_convex (points : List Point) :
    (3 ≤ points.length →
      CCWOriented (convexHull points) ∧
      isConvex (convexHull points) = true ∧
      ∀ p ∈ convexHull points, p ∈ points) ∧
    (points.length < 3 → convexHull points = points) := by
  constructor
  · intro h3
    have hnlt : ¬ points.length < 3 := not_lt.mpr h3
    have hrw : convexHull points =
        (buildChain (List.insertionSort lexLe points)).reverse.dropLast ++
          (buildChain
            (List.insertionSort lexLe points).reverse).reverse.dropLast := by
      unfold convexHull
      rw [if_neg hnlt]
    have hperm : ∀ x, x ∈ List.insertionSort lexLe points ↔ x ∈ points :=
      fun x => (List.perm_insertionSort lexLe points).mem_iff
    have hsort := List.sorted_insertionSort lexLe points
    have hlen : 3 ≤ (List.insertionSort lexLe points).length := by
      rw [(List.perm_insertionSort lexLe points).length_eq]
      exact h3
    have hmain := hull_assembly points (List.insertionSort lexLe points)
      hperm hsort hlen
    rw [hrw]
    exact ⟨hmain.1, isConvex_of_cross_nonneg _ hmain.1, hmain.2⟩
  · intro hlt
    unfold convexHull
    rw [if_pos hlt]

/-- Witness for C9 at concrete inputs: a 4-point set (with one interior
point) yields a convex counter-clockwise hull drawn from the input, and a
2-point set is returned unchanged. -/
theorem C9_witness :
    (CCWOriented (convexHull [⟨0, 0⟩, ⟨3, 0⟩, ⟨1, 1⟩, ⟨0, 3⟩]) ∧
      isConvex (convexHull [⟨0, 0⟩, ⟨3, 0⟩, ⟨1, 1⟩, ⟨0, 3⟩]) = true ∧
      ∀ p ∈ convexHull [⟨0, 0⟩, ⟨3, 0⟩, ⟨1, 1⟩, ⟨0, 3⟩],
        p ∈ ([⟨0, 0⟩, ⟨3, 0⟩, ⟨1, 1⟩, ⟨0, 3⟩] : List Point)) ∧
    convexHull [⟨0, 0⟩, ⟨2, 2⟩] = [⟨0, 0⟩, ⟨2, 2⟩] :=
  ⟨(C9_convexHull_ccw_convex [⟨0, 0⟩, ⟨3, 0⟩, ⟨1, 1⟩, ⟨0, 3⟩]).1
      (by with_unfolding_all decide),
    (C9_convexHull_ccw_convex [⟨0, 0⟩, ⟨2, 2⟩]).2
      (by with_unfolding_all decide)⟩

end CanvasAnim
